import Mathlib

/-!
Verification of the Pelican "events" plugin (events/events.py).

The Python source is shallowly embedded below: datetimes are modelled as
seconds counted with the proleptic Gregorian calendar (the civil-days
algorithm), `datetime.strptime` with the fixed format `%Y-%m-%d %H:%M` is
embedded following CPython's `_strptime` regex table (each `%`-directive
becomes its alternation of digit patterns, the literal space becomes a
nonempty whitespace run, alternatives are tried in regex order with
backtracking), Python exceptions become an `Err` sum type, and the global
mutable store (`events`, `localized_events`) becomes an explicit `Store`
value threaded through the functions.
-/

deriving instance DecidableEq for Except

namespace EventsPlugin

/-! ## Characters and digits

Python compiles `str` regexes with Unicode semantics: `\d` matches every
character of Unicode category Nd (decimal digit) — on this CPython build
(Unicode 14) exactly 66 runs of ten consecutive code points whose `int()`
value is the offset into the run — and `\s` matches Python's whitespace
set (the 29 code points below, shared by `str.split()`).  Bracketed
classes such as `[0-2]` and literal characters in the compiled format
remain plain code-point ranges. -/

/-- First code point of each Unicode Nd decimal-digit run (`0x30` is
ASCII `0-9`, `0xFF10` the fullwidth digits, …); each run holds the digits
0–9 in order. -/
def ndRangeStarts : List Nat :=
  [0x30, 0x660, 0x6F0, 0x7C0, 0x966, 0x9E6, 0xA66, 0xAE6, 0xB66, 0xBE6,
   0xC66, 0xCE6, 0xD66, 0xDE6, 0xE50, 0xED0, 0xF20, 0x1040, 0x1090, 0x17E0,
   0x1810, 0x1946, 0x19D0, 0x1A80, 0x1A90, 0x1B50, 0x1BB0, 0x1C40, 0x1C50,
   0xA620, 0xA8D0, 0xA900, 0xA9D0, 0xA9F0, 0xAA50, 0xABF0, 0xFF10, 0x104A0,
   0x10D30, 0x11066, 0x110F0, 0x11136, 0x111D0, 0x112F0, 0x11450, 0x114D0,
   0x11650, 0x116C0, 0x11730, 0x118E0, 0x11950, 0x11C50, 0x11D50, 0x11DA0,
   0x16A60, 0x16AC0, 0x16B50, 0x1D7CE, 0x1D7D8, 0x1D7E2, 0x1D7EC, 0x1D7F6,
   0x1E140, 0x1E2F0, 0x1E950, 0x1FBF0]

/-- The regex `\d`: any Unicode decimal digit. -/
def isDigitCh (c : Char) : Bool :=
  ndRangeStarts.any fun s => decide (s ≤ c.toNat) && decide (c.toNat ≤ s + 9)

/-- Numeric value of a decimal digit (what `int()` assigns each char). -/
def dv (c : Char) : Nat :=
  match ndRangeStarts.find? fun s =>
      decide (s ≤ c.toNat) && decide (c.toNat ≤ s + 9) with
  | some s => c.toNat - s
  | none => 0

/-- Python's whitespace code points (regex `\s` and `str.split()`). -/
def pySpaceVals : List Nat :=
  [0x09, 0x0A, 0x0B, 0x0C, 0x0D, 0x1C, 0x1D, 0x1E, 0x1F, 0x20, 0x85, 0xA0,
   0x1680, 0x2000, 0x2001, 0x2002, 0x2003, 0x2004, 0x2005, 0x2006, 0x2007,
   0x2008, 0x2009, 0x200A, 0x2028, 0x2029, 0x202F, 0x205F, 0x3000]

/-- The regex `\s`: Python's Unicode whitespace. -/
def isSpaceCh (c : Char) : Bool :=
  pySpaceVals.any fun v => decide (c.toNat = v)

/-- A bracketed regex class `[lo-hi]` of literal characters: a plain
code-point range. -/
def inRange (lo hi c : Char) : Bool :=
  decide (lo.toNat ≤ c.toNat) && decide (c.toNat ≤ hi.toNat)

/-- Value of a digit string, most significant first. -/
def natVal (t : List Char) : Nat := t.foldl (fun acc c => acc * 10 + dv c) 0

/-! ## Calendar arithmetic

`datetime` values are mapped to seconds via the civil-days algorithm;
comparison and `timedelta` addition on `datetime` agree with `Int`
comparison and addition on this encoding. -/

def isLeap (y : Nat) : Bool := y % 4 = 0 && (y % 100 ≠ 0 || y % 400 = 0)

def daysInMonth (y m : Nat) : Nat :=
  if m = 2 then (if isLeap y then 29 else 28)
  else if m = 4 || m = 6 || m = 9 || m = 11 then 30
  else 31

/-- Days since 1970-01-01 of a civil date (years here are ≥ 1). -/
def daysFromCivil (y m d : Nat) : Int :=
  let yy : Nat := if m ≤ 2 then y - 1 else y
  let era : Nat := yy / 400
  let yoe : Nat := yy % 400
  let mp : Nat := (m + 9) % 12
  let doy : Nat := (153 * mp + 2) / 5 + d - 1
  let doe : Nat := yoe * 365 + yoe / 4 - yoe / 100 + doy
  (era : Int) * 146097 + (doe : Int) - 719468

structure Tstamp where
  year : Nat
  month : Nat
  day : Nat
  hour : Nat
  minute : Nat
deriving DecidableEq, Repr

def tstampSecs (t : Tstamp) : Int :=
  daysFromCivil t.year t.month t.day * 86400 + t.hour * 3600 + t.minute * 60

/-! ## `datetime.strptime(s, "%Y-%m-%d %H:%M")`

CPython's `_strptime` compiles the format to a regex:
`%Y ↦ \d\d\d\d`, `%m ↦ 1[0-2]|0[1-9]|[1-9]`,
`%d ↦ 3[0-1]|[1-2]\d|0[1-9]|[1-9]| [1-9]`, `%H ↦ 2[0-3]|[0-1]\d|\d`,
`%M ↦ [0-5]\d|\d`, and the literal space of the format becomes `\s+`
(the space inside `%d`'s ` [1-9]` stays a literal).  `\d` is
Unicode-aware (`isDigitCh`), bracketed classes and literals are plain
code points, and `\s` is Python whitespace (`isSpaceCh`).  The whole
input must be consumed, the matched text is converted with `int()`
(digit values per `dv`), and the fields are then validated by the
`datetime` constructor (year ≥ 1, day within the month).  Each field
below yields its regex alternatives as a list of (value, remaining input)
candidates in alternation order; the overall match tries candidates left
to right (regex backtracking). -/

def monthCands : List Char → List (Nat × List Char)
  | a :: b :: rest =>
    (if decide (a = '1') && inRange '0' '2' b then
       [(10 * dv a + dv b, rest)]
     else if decide (a = '0') && inRange '1' '9' b then
       [(10 * dv a + dv b, rest)]
     else []) ++
    (if inRange '1' '9' a then [(dv a, b :: rest)] else [])
  | [a] => if inRange '1' '9' a then [(dv a, [])] else []
  | [] => []

def dayCands : List Char → List (Nat × List Char)
  | a :: b :: rest =>
    (if decide (a = '3') && inRange '0' '1' b then
       [(10 * dv a + dv b, rest)]
     else if inRange '1' '2' a && isDigitCh b then
       [(10 * dv a + dv b, rest)]
     else if decide (a = '0') && inRange '1' '9' b then
       [(10 * dv a + dv b, rest)]
     else []) ++
    (if inRange '1' '9' a then [(dv a, b :: rest)] else []) ++
    (if decide (a = ' ') && inRange '1' '9' b then
       [(dv b, rest)]
     else [])
  | [a] => if inRange '1' '9' a then [(dv a, [])] else []
  | [] => []

def hourCands : List Char → List (Nat × List Char)
  | a :: b :: rest =>
    (if decide (a = '2') && inRange '0' '3' b then
       [(10 * dv a + dv b, rest)]
     else if inRange '0' '1' a && isDigitCh b then
       [(10 * dv a + dv b, rest)]
     else []) ++
    (if isDigitCh a then [(dv a, b :: rest)] else [])
  | [a] => if isDigitCh a then [(dv a, [])] else []
  | [] => []

def minuteCands : List Char → List (Nat × List Char)
  | a :: b :: rest =>
    (if inRange '0' '5' a && isDigitCh b then
       [(10 * dv a + dv b, rest)]
     else []) ++
    (if isDigitCh a then [(dv a, b :: rest)] else [])
  | [a] => if isDigitCh a then [(dv a, [])] else []
  | [] => []

/-- First candidate whose continuation succeeds (regex backtracking). -/
def firstSome : List α → (α → Option β) → Option β
  | [], _ => none
  | a :: as, f =>
    match f a with
    | some b => some b
    | none => firstSome as f

/-- A literal character of the format: consume it or fail. -/
def expectChar (ch : Char) (l : List Char) (k : List Char → Option Tstamp) :
    Option Tstamp :=
  match l with
  | c :: r => if decide (c = ch) then k r else none
  | [] => none

/-- End of input: anything left over means "unconverted data remains". -/
def requireEnd (l : List Char) (v : Option Tstamp) : Option Tstamp :=
  match l with
  | [] => v
  | _ :: _ => none

/-- `datetime.strptime(s, '%Y-%m-%d %H:%M')`, returning `none` where Python
raises `ValueError`.  The whitespace run is taken maximally: the token after
it starts with a digit, which is never whitespace, so maximal munch agrees
with the regex's `\s+`. -/
def strptimeYmdHM (s : List Char) : Option Tstamp :=
  match s with
  | y1 :: y2 :: y3 :: y4 :: c5 :: r1 =>
    if isDigitCh y1 && isDigitCh y2 && isDigitCh y3 && isDigitCh y4 &&
        decide (c5 = '-') then
      let y := natVal [y1, y2, y3, y4]
      firstSome (monthCands r1) fun mc =>
        expectChar '-' mc.2 fun r3 =>
          firstSome (dayCands r3) fun dc =>
            let ws := dc.2.takeWhile isSpaceCh
            let r5 := dc.2.dropWhile isSpaceCh
            if ws.isEmpty then none
            else
              firstSome (hourCands r5) fun hc =>
                expectChar ':' hc.2 fun r7 =>
                  firstSome (minuteCands r7) fun nc =>
                    requireEnd nc.2
                      (if decide (1 ≤ y) && decide (dc.1 ≤ daysInMonth y mc.1) then
                        some ⟨y, mc.1, dc.1, hc.1, nc.1⟩
                      else none)
    else none
  | _ => none

/-! ## Python `int()` on a whitespace-free string

CPython's integer literal: optional sign, then ASCII digits in which a
single underscore may stand between two digits.  (The chunks this is
applied to come from `str.split()`, so they carry no whitespace.) -/

def intDigitsAux : Nat → List Char → Option Nat
  | acc, [] => some acc
  | acc, c :: rest =>
    if c = '_' then
      match rest with
      | c' :: rest' =>
        if isDigitCh c' then intDigitsAux (acc * 10 + dv c') rest' else none
      | [] => none
    else if isDigitCh c then intDigitsAux (acc * 10 + dv c) rest
    else none

def natLit : List Char → Option Nat
  | c :: rest => if isDigitCh c then intDigitsAux (dv c) rest else none
  | [] => none

def pyIntParse : List Char → Option Int
  | [] => none
  | c :: rest =>
    if c = '+' then (natLit rest).map fun n => (n : Int)
    else if c = '-' then (natLit rest).map fun n => -(n : Int)
    else (natLit (c :: rest)).map fun n => (n : Int)

/-! ## `str.split()` — split on whitespace runs, dropping empty chunks -/

def pySplitAux : List Char → List Char → List (List Char)
  | [], acc => if acc.isEmpty then [] else [acc.reverse]
  | c :: rest, acc =>
    if isSpaceCh c then
      if acc.isEmpty then pySplitAux rest []
      else acc.reverse :: pySplitAux rest []
    else pySplitAux rest (c :: acc)

def pySplit (s : List Char) : List (List Char) := pySplitAux s []

/-! ## Errors

Structured stand-ins for the exceptions the plugin raises or lets
propagate; the spec's error taxonomy names them `MalformedTimestamp`
(strptime `ValueError`), `InvalidUnit` (the `RuntimeError` for an unknown
multiplier), `InvalidNumber` (the `ValueError` from `int()`), and
`MissingEndSpecification` (the resolver's `ValueError`). -/

inductive Err
  | malformedTimestamp (field : String) (title : String)
  | invalidUnit (chunk : String) (title : String)
  | invalidNumber (chunk : String) (title : String)
  | missingEnd (title : String)
  | keyError (key : String)
  | attrError (name : String)
  | unknownTimezone (tz : String)
deriving DecidableEq, Repr

/-! ## Metadata

The metadata dict of one content item, restricted to the keys the plugin
reads.  `title`, `slug` and `date` are required by the pipeline and always
present on Pelican content, so they are plain fields; the `date` value is a
datetime, encoded in seconds like every other timestamp here. -/

structure Metadata where
  title : String
  slug : String
  date : Int
  lang : Option String
  eventStart : Option String
  eventEnd : Option String
  eventDuration : Option String
  eventLocation : Option String
  location : Option String
deriving DecidableEq, Repr

/-- Dict access `md[key]` for the keys `parse_tstamp`/`parse_timedelta`
are called with. -/
def mdGet (md : Metadata) : String → Option String
  | "event-start" => md.eventStart
  | "event-end" => md.eventEnd
  | "event-duration" => md.eventDuration
  | _ => none

/-! ## `parse_tstamp` -/

def parse_tstamp (md : Metadata) (fieldName : String) : Except Err Int :=
  match mdGet md fieldName with
  | none => .error (.keyError fieldName)
  | some s =>
    match strptimeYmdHM s.data with
    | some t => .ok (tstampSecs t)
    | none => .error (.malformedTimestamp fieldName md.title)

/-! ## `parse_timedelta` -/

/-- `TIME_MULTIPLIERS` lookup on the chunk's last character. -/
def timeMultiplier (u : Char) : Option String :=
  if u = 'w' then some "weeks"
  else if u = 'd' then some "days"
  else if u = 'h' then some "hours"
  else if u = 'm' then some "minutes"
  else if u = 's' then some "seconds"
  else none

/-- The `tdargs` dict accumulated by the chunk loop. -/
structure TdArgs where
  weeks : Option Int := none
  days : Option Int := none
  hours : Option Int := none
  minutes : Option Int := none
  seconds : Option Int := none
deriving DecidableEq, Repr

def setArg (t : TdArgs) (m : String) (v : Int) : TdArgs :=
  if m = "weeks" then { t with weeks := some v }
  else if m = "days" then { t with days := some v }
  else if m = "hours" then { t with hours := some v }
  else if m = "minutes" then { t with minutes := some v }
  else if m = "seconds" then { t with seconds := some v }
  else t

/-- One iteration of the chunk loop: `m = TIME_MULTIPLIERS[c[-1]]`, then
`val = int(c[:-1])`, then `tdargs[m] = val`.  An empty chunk cannot occur
(`str.split()` never yields one). -/
def tdStep (title : String) (t : TdArgs) (c : List Char) : Except Err TdArgs :=
  match c.getLast? with
  | none => .error (.invalidUnit "" title)
  | some u =>
    match timeMultiplier u with
    | none => .error (.invalidUnit (String.mk c) title)
    | some m =>
      match pyIntParse c.dropLast with
      | none => .error (.invalidNumber (String.mk c) title)
      | some v => .ok (setArg t m v)

def tdFold (title : String) : List (List Char) → TdArgs → Except Err TdArgs
  | [], t => .ok t
  | c :: cs, t =>
    match tdStep title t c with
    | .ok t' => tdFold title cs t'
    | .error e => .error e

def parse_timedelta_args (md : Metadata) : Except Err TdArgs :=
  match mdGet md "event-duration" with
  | none => .error (.keyError "event-duration")
  | some s => tdFold md.title (pySplit s.data) {}

/-- `timedelta(**tdargs)` in seconds. -/
def timedeltaSecs (t : TdArgs) : Int :=
  (t.weeks.getD 0) * 604800 + (t.days.getD 0) * 86400 +
  (t.hours.getD 0) * 3600 + (t.minutes.getD 0) * 60 + (t.seconds.getD 0)

def parse_timedelta (md : Metadata) : Except Err Int :=
  (parse_timedelta_args md).map timedeltaSecs

/-! ## Content items and `parse_article` -/

/-- One content item: its metadata, its rendered summary (the value
`article.get_summary(SITEURL)` returns, an accessor of the host), and the
four attributes `parse_article` attaches with `setattr` (hyphenated and
underscored spellings). -/
structure Content where
  metadata : Metadata
  summary : String
  attrEventStartH : Option Int := none
  attrEventEndH : Option Int := none
  event_start : Option Int := none
  event_end : Option Int := none
deriving DecidableEq, Repr

/-- Resolution of the end timestamp once the start is known: `event-end`
takes precedence, else `event-duration`, else the `ValueError` naming the
event title. -/
def resolveEnd (md : Metadata) (dtstart : Int) : Except Err Int :=
  if (mdGet md "event-end").isSome then
    parse_tstamp md "event-end"
  else if (mdGet md "event-duration").isSome then
    match parse_timedelta md with
    | .error e => .error e
    | .ok dtdelta => .ok (dtstart + dtdelta)
  else
    .error (.missingEnd md.title)

def parse_article (c : Content) : Except Err Content :=
  match mdGet c.metadata "event-start" with
  | none => .ok c
  | some _ =>
    match parse_tstamp c.metadata "event-start" with
    | .error e => .error e
    | .ok dtstart =>
      match resolveEnd c.metadata dtstart with
      | .error e => .error e
      | .ok dtend =>
        .ok { c with attrEventStartH := some dtstart, attrEventEndH := some dtend,
                     event_start := some dtstart, event_end := some dtend }

/-! ## The event store -/

structure Event where
  dtstart : Int
  dtend : Int
  metadata : Metadata
  article : Content
deriving DecidableEq, Repr

/-- The module-level state: the `events` list and the `localized_events`
defaultdict (an association list keyed by language, in insertion order). -/
structure Store where
  events : List Event
  localized : List (String × List Event)
deriving DecidableEq, Repr

def Store.empty : Store := ⟨[], []⟩

def mkEvent (c : Content) (s e : Int) : Event := ⟨s, e, c.metadata, c⟩

/-- The collection loop of `generate_events`: items that carry an
`event_start` attribute become an `Event`, appended unless a structurally
equal one is already present.  Reading `event_end` on an item that lacks
it is Python's `AttributeError`. -/
def collectEvents : List Event → List Content → Except Err (List Event)
  | evs, [] => .ok evs
  | evs, c :: cs =>
    match c.event_start with
    | none => collectEvents evs cs
    | some s =>
      match c.event_end with
      | none => .error (.attrError "event_end")
      | some e =>
        collectEvents
          (if mkEvent c s e ∈ evs then evs else evs ++ [mkEvent c s e]) cs

/-! ## Settings -/

/-- Site settings the plugin reads.  `pluginEvents` is the
`PLUGIN_EVENTS` dict; a value is either Python `None` (`none`) or a
string. -/
structure Settings where
  pluginEvents : List (String × Option String)
  outputPath : String
  timezone : String
  siteurl : String
  defaultLang : String
  sitename : String
  plugins : List String
deriving DecidableEq, Repr

/-- Dict lookup: `none` is a missing key (Python `KeyError`). -/
def dictGet (m : List (String × Option String)) (k : String) :
    Option (Option String) :=
  (m.find? fun p => p.1 = k).map Prod.snd

/-- Python truthiness of an `ics_fname` value: `None` and `""` are falsy. -/
def pyFalsy : Option String → Bool
  | none => true
  | some s => s.isEmpty

/-! ## `generate_localized_events` -/

/-- `localized_events[k].append(e)` on a defaultdict(list). -/
def ddAppend (m : List (String × List Event)) (k : String) (e : Event) :
    List (String × List Event) :=
  if m.any fun p => p.1 = k then
    m.map fun p => if p.1 = k then (p.1, p.2 ++ [e]) else p
  else m ++ [(k, [e])]

def generate_localized_events (settings : Settings) (st : Store) : Store :=
  if settings.plugins.contains "i18n_subsites" then
    { st with
      localized := st.events.foldl (fun acc e =>
        match e.metadata.lang with
        | some l => ddAppend acc l e
        | none => acc) st.localized }
  else st

/-! ## `generate_ical_file` -/

/-- `Markup(s).striptags()`, modelled as removal of `<...>` spans (the
whitespace normalisation and entity unescaping jinja2 also performs do not
matter to any property below). -/
def striptagsAux : Bool → List Char → List Char
  | _, [] => []
  | _, '<' :: rest => striptagsAux true rest
  | _, '>' :: rest => striptagsAux false rest
  | true, _ :: rest => striptagsAux true rest
  | false, c :: rest => c :: striptagsAux false rest

def striptags (s : String) : String := String.mk (striptagsAux false s.data)

/-- Modelled library boundary: `pytz.timezone` as a table of fixed UTC
offsets in seconds (`none` = `UnknownTimeZoneError`).  The claims only
exercise the `UTC` entry, where `localize`/`astimezone` shift by 0. -/
def tzOffsetSecs : String → Option Int
  | "UTC" => some 0
  | _ => none

def toUtc (off : Int) (t : Int) : Int := t - off

/-- One `icalendar.Event` component as the loop builds it. -/
structure IcalEvent where
  summary : String
  dtstart : Int
  dtend : Int
  dtstamp : Int
  uid : String
  visibility : String
  description : String
  location : Option String
deriving DecidableEq, Repr

/-- The `icalendar.Calendar` document. -/
structure Calendar where
  prodid : String
  version : String
  method : String
  components : List IcalEvent
deriving DecidableEq, Repr

def mkIcalEvent (settings : Settings) (off : Int) (e : Event) : IcalEvent :=
  { summary := striptags e.metadata.title
    dtstart := toUtc off e.dtstart
    dtend := toUtc off e.dtend
    dtstamp := toUtc off e.metadata.date
    uid := e.metadata.slug ++ "@" ++ settings.sitename
    visibility := "PUBLIC"
    description := striptags e.article.summary
    location :=
      match e.metadata.eventLocation with
      | some l => some l
      | none => e.metadata.location }

/-- Reading `localized_events[DEFAULT_LANG]` from the defaultdict: a
missing key is materialised as an empty list, mutating the dict. -/
def ddLookup (m : List (String × List Event)) (k : String) :
    List Event × List (String × List Event) :=
  match m.find? fun p => p.1 = k with
  | some p => (p.2, m)
  | none => ([], m ++ [(k, [])])

/-- `generate_ical_file`: returns the calendar written to disk (`none` if
the empty-filename guard returned early) together with the store, whose
`localized` dict the defaultdict read may have extended. -/
def generate_ical_file (settings : Settings) (st : Store) :
    Except Err (Option Calendar × Store) :=
  match dictGet settings.pluginEvents "ics_fname" with
  | none => .error (.keyError "ics_fname")
  | some fnameVal =>
    if pyFalsy fnameVal then .ok (none, st)
    else
      match tzOffsetSecs settings.timezone with
      | none => .error (.unknownTimezone settings.timezone)
      | some off =>
        let sel :=
          if st.localized.isEmpty then (st.events, st.localized)
          else ddLookup st.localized settings.defaultLang
        let cal : Calendar :=
          { prodid := "-//pelican/events//mxm.dk//EN"
            version := "2.0"
            method := "PUBLISH"
            components := sel.1.map (mkIcalEvent settings off) }
        .ok (some cal, { st with localized := sel.2 })

/-! ## `generate_events_list` -/

/-- The sort key comparison of `sorted(..., reverse=True,
key=lambda ev: (ev.dtstart, ev.dtend))`: `keyLe a b` holds when `a` may
precede `b`, i.e. `a`'s key is lexicographically ≥ `b`'s. -/
def keyLe (a b : Event) : Bool :=
  decide (b.dtstart < a.dtstart ∨ (b.dtstart = a.dtstart ∧ b.dtend ≤ a.dtend))

/-- Python's `sorted` (stable) under the descending key order. -/
def pySortedDesc (l : List Event) : List Event := l.mergeSort keyLe

inductive EventsList
  | global (l : List Event)
  | perLang (m : List (String × List Event))
deriving DecidableEq, Repr

def generate_events_list (st : Store) : EventsList :=
  if st.localized.isEmpty then .global (pySortedDesc st.events)
  else .perLang (st.localized.map fun p => (p.1, pySortedDesc p.2))

/-! ## `initialize_events` and the finalization hook -/

/-- `initialize_events`: `del events[:]` and `localized_events.clear()`. -/
def init_events (_ : Store) : Store := Store.empty

/-- `generate_events`: collect, partition, export, publish. -/
def generate_events (settings : Settings) (items : List Content) (st : Store) :
    Except Err (Store × Option Calendar × EventsList) := do
  let evs ← collectEvents st.events items
  let st1 : Store := { st with events := evs }
  let st2 := generate_localized_events settings st1
  let (cal, st3) ← generate_ical_file settings st2
  pure (st3, cal, generate_events_list st3)

/-! ## Predicates used by the statements -/

/-- Sortedness of the published listing: non-increasing in the
(start, end) lexicographic key. -/
def sortedDescEL : EventsList → Prop
  | .global l => l.Pairwise fun a b => keyLe a b = true
  | .perLang m => ∀ p ∈ m, p.2.Pairwise fun a b => keyLe a b = true

/-- Re-sorting a published listing with the publisher's own sort. -/
def resortEL : EventsList → EventsList
  | .global l => .global (pySortedDesc l)
  | .perLang m => .perLang (m.map fun p => (p.1, pySortedDesc p.2))

/-- The format the spec's words describe: exactly `YYYY-MM-DD HH:MM`,
24-hour, zero-padded, with in-range month, day (for that month), hour and
minute. -/
def specStrictFormat : List Char → Bool
  | [y1, y2, y3, y4, s1, m1, m2, s2, d1, d2, s3, h1, h2, s4, n1, n2] =>
    inRange '0' '9' y1 && inRange '0' '9' y2 && inRange '0' '9' y3 &&
    inRange '0' '9' y4 &&
    decide (s1 = '-') && inRange '0' '9' m1 && inRange '0' '9' m2 &&
    decide (s2 = '-') &&
    inRange '0' '9' d1 && inRange '0' '9' d2 && decide (s3 = ' ') &&
    inRange '0' '9' h1 && inRange '0' '9' h2 && decide (s4 = ':') &&
    inRange '0' '9' n1 && inRange '0' '9' n2 &&
    decide (1 ≤ natVal [y1, y2, y3, y4]) &&
    decide (1 ≤ natVal [m1, m2]) && decide (natVal [m1, m2] ≤ 12) &&
    decide (1 ≤ natVal [d1, d2]) &&
    decide (natVal [d1, d2] ≤ daysInMonth (natVal [y1, y2, y3, y4]) (natVal [m1, m2])) &&
    decide (natVal [h1, h2] ≤ 23) && decide (natVal [n1, n2] ≤ 59)
  | _ => false

/-- The language of the `%m` regex `1[0-2]|0[1-9]|[1-9]` (ASCII only —
the pattern has no `\d`). -/
def monthTok : List Char → Bool
  | [a] => inRange '1' '9' a
  | [a, b] =>
    (decide (a = '1') && inRange '0' '2' b) ||
    (decide (a = '0') && inRange '1' '9' b)
  | _ => false

/-- The language of the `%d` regex `3[0-1]|[1-2]\d|0[1-9]|[1-9]| [1-9]`
(the second character of `[1-2]\d` may be any Unicode decimal digit). -/
def dayTok : List Char → Bool
  | [a] => inRange '1' '9' a
  | [a, b] =>
    (decide (a = '3') && inRange '0' '1' b) ||
    (inRange '1' '2' a && isDigitCh b) ||
    (decide (a = '0') && inRange '1' '9' b) ||
    (decide (a = ' ') && inRange '1' '9' b)
  | _ => false

/-- The language of the `%H` regex `2[0-3]|[0-1]\d|\d` (the `\d`
positions may be any Unicode decimal digit). -/
def hourTok : List Char → Bool
  | [a] => isDigitCh a
  | [a, b] =>
    (decide (a = '2') && inRange '0' '3' b) ||
    (inRange '0' '1' a && isDigitCh b)
  | _ => false

/-- The language of the `%M` regex `[0-5]\d|\d` (the `\d` positions may
be any Unicode decimal digit). -/
def minuteTok : List Char → Bool
  | [a] => isDigitCh a
  | [a, b] => inRange '0' '5' a && isDigitCh b
  | _ => false

/-- Numeric value of a `%d` token (the space-padded form ` [1-9]` counts
only its digit). -/
def tokVal (t : List Char) : Nat :=
  match t with
  | [] => 0
  | c :: rest => if c = ' ' then natVal rest else natVal (c :: rest)

/-- Declarative characterization of the strings `strptimeYmdHM` accepts:
a year of exactly four Unicode decimal digits with value ≥ 1, `-`, a
month token, `-`, a day token, a nonempty run of Python whitespace, an
hour token, `:`, a minute token, nothing after, and the day valid for the
month. -/
def tsAccepted (s : List Char) : Prop :=
  ∃ ys ms ds ws hs ns : List Char,
    s = ys ++ '-' :: (ms ++ '-' :: (ds ++ (ws ++ (hs ++ ':' :: ns)))) ∧
    ys.length = 4 ∧ (∀ c ∈ ys, isDigitCh c) ∧ 1 ≤ natVal ys ∧
    monthTok ms = true ∧ dayTok ds = true ∧
    ws ≠ [] ∧ (∀ c ∈ ws, isSpaceCh c) ∧
    hourTok hs = true ∧ minuteTok ns = true ∧
    tokVal ds ≤ daysInMonth (natVal ys) (tokVal ms)

/-! ## Predicates for the duration-parser claims -/

/-- An optionally signed nonempty digit string (the `<int>` of a
`<int><w|d|h|m|s>` chunk). -/
def intLit : List Char → Bool
  | [] => false
  | c :: rest =>
    if c = '+' || c = '-' then !rest.isEmpty && rest.all isDigitCh
    else (c :: rest).all isDigitCh

def intLitVal : List Char → Int
  | [] => 0
  | c :: rest =>
    if c = '+' then (natVal rest : Int)
    else if c = '-' then -(natVal rest : Int)
    else (natVal (c :: rest) : Int)

def chunkUnit (c : List Char) : Option Char := c.getLast?

def goodChunk (c : List Char) : Bool :=
  match c.getLast? with
  | some u => (timeMultiplier u).isSome && intLit c.dropLast
  | none => false

/-- Whether the chunk's unit letter names the `timedelta` field `f`. -/
def unitMatches (c : List Char) (f : String) : Bool :=
  match c.getLast? with
  | some u => decide (timeMultiplier u = some f)
  | none => false

/-- The value the chunk loop leaves in `tdargs[f]` when it started out as
`a`: the last chunk naming unit `f` wins. -/
def lastArgFrom (a : Option Int) : List (List Char) → String → Option Int
  | [], _ => a
  | c :: cs, f =>
    lastArgFrom
      (if unitMatches c f then some (intLitVal c.dropLast) else a) cs f

def lastArg (cs : List (List Char)) (f : String) : Option Int :=
  lastArgFrom none cs f

def argsOf (cs : List (List Char)) : TdArgs :=
  ⟨lastArg cs "weeks", lastArg cs "days", lastArg cs "hours",
   lastArg cs "minutes", lastArg cs "seconds"⟩

/-! ## Concrete fixtures for the witnesses -/

def exSettings : Settings :=
  { pluginEvents := [("ics_fname", some "calendar.ics")]
    outputPath := "output"
    timezone := "UTC"
    siteurl := "http://example.org"
    defaultLang := "en"
    sitename := "Example Site"
    plugins := ["i18n_subsites"] }

def exMdDuration : Metadata :=
  { title := "Sprint planning"
    slug := "sprint-planning"
    date := 0
    lang := some "en"
    eventStart := some "2024-01-01 10:00"
    eventEnd := none
    eventDuration := some "2h"
    eventLocation := none
    location := none }

def exContentDuration : Content :=
  { metadata := exMdDuration, summary := "planning session" }

def exMdEnd : Metadata :=
  { title := "Retro"
    slug := "retro"
    date := 0
    lang := some "de"
    eventStart := some "2024-06-01 09:00"
    eventEnd := some "2024-06-01 11:00"
    eventDuration := none
    eventLocation := none
    location := none }

def exContentEnd : Content :=
  { metadata := exMdEnd, summary := "retrospective" }

def exResolvedEnd : Content :=
  { exContentEnd with
    attrEventStartH := some (tstampSecs ⟨2024, 6, 1, 9, 0⟩)
    attrEventEndH := some (tstampSecs ⟨2024, 6, 1, 11, 0⟩)
    event_start := some (tstampSecs ⟨2024, 6, 1, 9, 0⟩)
    event_end := some (tstampSecs ⟨2024, 6, 1, 11, 0⟩) }

def exEventEnd : Event :=
  mkEvent exResolvedEnd (tstampSecs ⟨2024, 6, 1, 9, 0⟩) (tstampSecs ⟨2024, 6, 1, 11, 0⟩)

def exResolvedDuration : Content :=
  { exContentDuration with
    attrEventStartH := some (tstampSecs ⟨2024, 1, 1, 10, 0⟩)
    attrEventEndH := some (tstampSecs ⟨2024, 1, 1, 12, 0⟩)
    event_start := some (tstampSecs ⟨2024, 1, 1, 10, 0⟩)
    event_end := some (tstampSecs ⟨2024, 1, 1, 12, 0⟩) }

def exEventDuration : Event :=
  mkEvent exResolvedDuration (tstampSecs ⟨2024, 1, 1, 10, 0⟩) (tstampSecs ⟨2024, 1, 1, 12, 0⟩)

def noFnameSettings : Settings :=
  { exSettings with pluginEvents := [] }

def emptyFnameSettings : Settings :=
  { exSettings with pluginEvents := [("ics_fname", some "")] }

def c10Store : Store := ⟨[exEventEnd], [("de", [exEventEnd])]⟩

def c7Store : Store :=
  ⟨[exEventDuration, exEventEnd],
   [("en", [exEventDuration]), ("de", [exEventEnd])]⟩

def mdNonPadded : Metadata :=
  { exMdDuration with eventStart := some "2024-1-1 1:05" }

def mdBadTs : Metadata :=
  { exMdDuration with eventStart := some "not a date" }

def mdDur30 : Metadata := { exMdDuration with eventDuration := some "2h 30m" }

def mdDurDup : Metadata := { exMdDuration with eventDuration := some "1d 1d" }

/-! # Theorems -/

/-! ## Sorting (List Publisher) -/

theorem keyLe_trans (a b c : Event) (hab : keyLe a b = true)
    (hbc : keyLe b c = true) : keyLe a c = true := by
  simp only [keyLe, decide_eq_true_eq] at *
  omega

theorem keyLe_total (a b : Event) : keyLe a b || keyLe b a := by
  simp only [keyLe, Bool.or_eq_true, decide_eq_true_eq]
  omega

theorem pySortedDesc_sorted (l : List Event) :
    (pySortedDesc l).Pairwise fun a b => keyLe a b = true :=
  List.sorted_mergeSort keyLe_trans keyLe_total l

theorem pySortedDesc_idem (l : List Event) :
    pySortedDesc (pySortedDesc l) = pySortedDesc l :=
  List.mergeSort_of_sorted (pySortedDesc_sorted l)

/-- C5: for every collected event set, the published listing (the single
global list when no localization is in effect, or each per-language list
otherwise) is non-increasing in the (start, end) lexicographic key, and
re-sorting a published listing leaves it unchanged. -/
theorem C5_published_sorted_idempotent (st : Store) :
    sortedDescEL (generate_events_list st) ∧
    resortEL (generate_events_list st) = generate_events_list st := by
  unfold generate_events_list
  by_cases h : st.localized.isEmpty
  · simp only [h, if_true, sortedDescEL, resortEL]
    exact ⟨pySortedDesc_sorted _, by rw [pySortedDesc_idem]⟩
  · simp only [h, if_false, sortedDescEL, resortEL, Bool.false_eq_true]
    constructor
    · intro p hp
      rcases List.mem_map.1 hp with ⟨q, _, rfl⟩
      exact pySortedDesc_sorted q.2
    · rw [List.map_map]
      congr 1
      apply List.map_congr_left
      intro q _
      simp [Function.comp, pySortedDesc_idem]

theorem C5_published_sorted_idempotent_witness :
    sortedDescEL (generate_events_list c7Store) ∧
    resortEL (generate_events_list c7Store) = generate_events_list c7Store :=
  C5_published_sorted_idempotent c7Store

/-! ## Calendar exporter guard (C6) -/

/-- C6 counterexample: with the `ics_fname` key absent from the plugin
settings, the exporter does not return silently — the dict access raises
(`KeyError`), contradicting the claim's "empty **or absent** ⇒ no error". -/
theorem C6_absent_key_raises :
    dictGet noFnameSettings.pluginEvents "ics_fname" = none ∧
    generate_ical_file noFnameSettings Store.empty =
      .error (.keyError "ics_fname") :=
  ⟨rfl, rfl⟩

/-- C6 (amended): when the configured filename value is falsy (the empty
string, or Python `None`), the exporter returns without writing a file and
without raising, leaving the store untouched. -/
theorem C6_empty_fname_noop (settings : Settings) (st : Store)
    (v : Option String)
    (hv : dictGet settings.pluginEvents "ics_fname" = some v)
    (hfalsy : pyFalsy v = true) :
    generate_ical_file settings st = .ok (none, st) := by
  unfold generate_ical_file
  rw [hv]
  simp [hfalsy]

theorem C6_empty_fname_noop_witness :
    generate_ical_file emptyFnameSettings Store.empty = .ok (none, Store.empty) :=
  C6_empty_fname_noop emptyFnameSettings Store.empty (some "") rfl rfl

/-! ## Exporter with localization but no default-language events (C10) -/

/-- C10: when the localized mapping is non-empty but holds no entry for
the default language, the exporter materialises an empty list for that
language (extending the defaultdict), and writes a calendar carrying the
document-level fields and zero event components — no fallback to the full
list, no error. -/
theorem C10_missing_default_lang (settings : Settings) (st : Store)
    (v : Option String) (off : Int)
    (hv : dictGet settings.pluginEvents "ics_fname" = some v)
    (htruthy : pyFalsy v = false)
    (htz : tzOffsetSecs settings.timezone = some off)
    (hne : st.localized ≠ [])
    (hmiss : st.localized.find? (fun p => p.1 = settings.defaultLang) = none) :
    generate_ical_file settings st =
      .ok (some { prodid := "-//pelican/events//mxm.dk//EN", version := "2.0",
                  method := "PUBLISH", components := [] },
           { st with localized := st.localized ++ [(settings.defaultLang, [])] }) := by
  have hemp : st.localized.isEmpty = false := by
    simpa [List.isEmpty_iff] using hne
  unfold generate_ical_file
  rw [hv]
  simp [htruthy, htz, hemp, ddLookup, hmiss]

theorem C10_missing_default_lang_witness :
    generate_ical_file exSettings c10Store =
      .ok (some { prodid := "-//pelican/events//mxm.dk//EN", version := "2.0",
                  method := "PUBLISH", components := [] },
           { c10Store with localized := c10Store.localized ++ [("en", [])] }) :=
  C10_missing_default_lang exSettings c10Store (some "calendar.ics") 0
    rfl rfl rfl (List.cons_ne_nil _ _) rfl

/-! ## Exporter language selection (C7) -/

/-- C7: the exporter serializes the default language's localized subset
whenever any localization partition exists, and the full unordered event
list otherwise; in the localized case every serialized event carries the
default language's tag, so no calendar mixes languages. -/
theorem C7_export_language_selection (settings : Settings) (st : Store)
    (v : Option String) (off : Int)
    (hv : dictGet settings.pluginEvents "ics_fname" = some v)
    (htruthy : pyFalsy v = false)
    (htz : tzOffsetSecs settings.timezone = some off)
    (hpart : ∀ p ∈ st.localized, ∀ e ∈ p.2, e.metadata.lang = some p.1) :
    (st.localized = [] →
      generate_ical_file settings st =
        .ok (some { prodid := "-//pelican/events//mxm.dk//EN", version := "2.0",
                    method := "PUBLISH",
                    components := st.events.map (mkIcalEvent settings off) }, st)) ∧
    (st.localized ≠ [] →
      generate_ical_file settings st =
        .ok (some { prodid := "-//pelican/events//mxm.dk//EN", version := "2.0",
                    method := "PUBLISH",
                    components :=
                      (ddLookup st.localized settings.defaultLang).1.map
                        (mkIcalEvent settings off) },
             { st with localized := (ddLookup st.localized settings.defaultLang).2 }) ∧
      ∀ e ∈ (ddLookup st.localized settings.defaultLang).1,
        e.metadata.lang = some settings.defaultLang) := by
  constructor
  · intro hnil
    have hemp : st.localized.isEmpty = true := by simp [hnil]
    unfold generate_ical_file
    rw [hv]
    simp [htruthy, htz, hemp]
  · intro hne
    have hemp : st.localized.isEmpty = false := by
      simpa [List.isEmpty_iff] using hne
    refine ⟨?_, ?_⟩
    · unfold generate_ical_file
      rw [hv]
      simp [htruthy, htz, hemp]
    · intro e he
      unfold ddLookup at he
      cases hfind : st.localized.find? (fun p => p.1 = settings.defaultLang) with
      | none => rw [hfind] at he; cases he
      | some p =>
        rw [hfind] at he
        have hp : p ∈ st.localized := List.mem_of_find?_eq_some hfind
        have hk : p.1 = settings.defaultLang := by
          have := List.find?_some hfind
          exact of_decide_eq_true this
        rw [← hk]
        exact hpart p hp e he

theorem C7_export_language_selection_witness :
    generate_ical_file exSettings c7Store =
      .ok (some { prodid := "-//pelican/events//mxm.dk//EN", version := "2.0",
                  method := "PUBLISH",
                  components := [mkIcalEvent exSettings 0 exEventDuration] },
           c7Store) ∧
    exEventDuration.metadata.lang = some "en" := by
  have h := C7_export_language_selection exSettings c7Store
    (some "calendar.ics") 0 rfl rfl rfl (by decide)
  have h2 := h.2 (List.cons_ne_nil _ _)
  exact ⟨h2.1, h2.2 exEventDuration (by decide)⟩

/-! ## Resolver idempotence (C9) -/

/-- C9: a second invocation of the resolver on a content item it already
resolved succeeds and changes nothing — the attached start/end
annotations (both spellings) keep the values of the first run. -/
theorem C9_resolver_idempotent (c c' : Content)
    (h : parse_article c = .ok c') : parse_article c' = .ok c' := by
  unfold parse_article at h ⊢
  cases hs : mdGet c.metadata "event-start" with
  | none =>
    simp only [hs] at h
    injection h with h
    subst h
    simp only [hs]
  | some s =>
    simp only [hs] at h
    cases ht : parse_tstamp c.metadata "event-start" with
    | error e => simp [ht] at h
    | ok dtstart =>
      simp only [ht] at h
      cases hr : resolveEnd c.metadata dtstart with
      | error e => simp [hr] at h
      | ok dtend =>
        simp only [hr, Except.ok.injEq] at h
        subst h
        simp only [hs, ht, hr]

theorem C9_resolver_idempotent_witness :
    parse_article exResolvedEnd = .ok exResolvedEnd :=
  C9_resolver_idempotent exContentEnd exResolvedEnd (by decide)

/-! ## Store lemmas (collection, dedup, localization) -/

theorem collect_mono : ∀ (items : List Content) (evs evs' : List Event),
    collectEvents evs items = .ok evs' → ∀ x ∈ evs, x ∈ evs' := by
  intro items
  induction items with
  | nil =>
    intro evs evs' h x hx
    injection h with h
    exact h ▸ hx
  | cons c cs ih =>
    intro evs evs' h x hx
    simp only [collectEvents] at h
    cases hcs : c.event_start with
    | none =>
      rw [hcs] at h
      exact ih _ _ h x hx
    | some s =>
      rw [hcs] at h
      cases hce : c.event_end with
      | none => simp [hce] at h
      | some e =>
        rw [hce] at h
        simp only at h
        by_cases hmem : mkEvent c s e ∈ evs
        · rw [if_pos hmem] at h
          exact ih _ _ h x hx
        · rw [if_neg hmem] at h
          exact ih _ _ h x (List.mem_append_left _ hx)

theorem collect_mem : ∀ (items : List Content) (evs evs' : List Event),
    collectEvents evs items = .ok evs' →
    ∀ c ∈ items, ∀ s e, c.event_start = some s → c.event_end = some e →
    mkEvent c s e ∈ evs' := by
  intro items
  induction items with
  | nil => intro _ _ _ c hc; cases hc
  | cons c0 cs ih =>
    intro evs evs' h c hc s e hcs hce
    simp only [collectEvents] at h
    rcases List.mem_cons.1 hc with rfl | hc'
    · rw [hcs, hce] at h
      simp only at h
      by_cases hmem : mkEvent c s e ∈ evs
      · rw [if_pos hmem] at h
        exact collect_mono cs _ _ h _ hmem
      · rw [if_neg hmem] at h
        exact collect_mono cs _ _ h _ (List.mem_append_right _ (List.mem_singleton.2 rfl))
    · cases hcs0 : c0.event_start with
      | none =>
        rw [hcs0] at h
        exact ih _ _ h c hc' s e hcs hce
      | some s0 =>
        rw [hcs0] at h
        cases hce0 : c0.event_end with
        | none => simp [hce0] at h
        | some e0 =>
          rw [hce0] at h
          simp only at h
          exact ih _ _ h c hc' s e hcs hce

theorem collect_shape : ∀ (items : List Content) (evs evs' : List Event),
    collectEvents evs items = .ok evs' →
    ∀ c ∈ items, c.event_start.isSome → c.event_end.isSome := by
  intro items
  induction items with
  | nil => intro _ _ _ c hc; cases hc
  | cons c0 cs ih =>
    intro evs evs' h c hc hstart
    simp only [collectEvents] at h
    rcases List.mem_cons.1 hc with rfl | hc'
    · cases hcs : c.event_start with
      | none => rw [hcs] at hstart; cases hstart
      | some s =>
        rw [hcs] at h
        cases hce : c.event_end with
        | none => simp [hce] at h
        | some e => simp [hce]
    · cases hcs0 : c0.event_start with
      | none =>
        rw [hcs0] at h
        exact ih _ _ h c hc' hstart
      | some s0 =>
        rw [hcs0] at h
        cases hce0 : c0.event_end with
        | none => simp [hce0] at h
        | some e0 =>
          rw [hce0] at h
          simp only at h
          exact ih _ _ h c hc' hstart

theorem collect_stable : ∀ (items : List Content) (evs0 : List Event),
    (∀ c ∈ items, ∀ s, c.event_start = some s →
      ∃ e, c.event_end = some e ∧ mkEvent c s e ∈ evs0) →
    collectEvents evs0 items = .ok evs0 := by
  intro items
  induction items with
  | nil => intro _ _; rfl
  | cons c cs ih =>
    intro evs0 hstab
    simp only [collectEvents]
    cases hcs : c.event_start with
    | none => exact ih evs0 fun c' hc' => hstab c' (List.mem_cons_of_mem _ hc')
    | some s =>
      rcases hstab c (List.mem_cons_self _ _) s hcs with ⟨e, hce, hmem⟩
      rw [hce]
      simp only
      rw [if_pos hmem]
      exact ih evs0 fun c' hc' => hstab c' (List.mem_cons_of_mem _ hc')

theorem collect_nodup : ∀ (items : List Content) (evs evs' : List Event),
    collectEvents evs items = .ok evs' → evs.Nodup → evs'.Nodup := by
  intro items
  induction items with
  | nil =>
    intro evs evs' h hd
    injection h with h
    exact h ▸ hd
  | cons c cs ih =>
    intro evs evs' h hd
    simp only [collectEvents] at h
    cases hcs : c.event_start with
    | none =>
      rw [hcs] at h
      exact ih _ _ h hd
    | some s =>
      rw [hcs] at h
      cases hce : c.event_end with
      | none => simp [hce] at h
      | some e =>
        rw [hce] at h
        simp only at h
        by_cases hmem : mkEvent c s e ∈ evs
        · rw [if_pos hmem] at h
          exact ih _ _ h hd
        · rw [if_neg hmem] at h
          apply ih _ _ h
          simp [List.nodup_append, hd, hmem]

theorem collect_sound : ∀ (items : List Content) (evs evs' : List Event),
    collectEvents evs items = .ok evs' →
    ∀ e ∈ evs', e ∈ evs ∨ ∃ c ∈ items, ∃ s en, c.event_start = some s ∧
      c.event_end = some en ∧ e = mkEvent c s en := by
  intro items
  induction items with
  | nil =>
    intro evs evs' h e he
    injection h with h
    exact Or.inl (h ▸ he)
  | cons c cs ih =>
    intro evs evs' h e he
    simp only [collectEvents] at h
    cases hcs : c.event_start with
    | none =>
      rw [hcs] at h
      rcases ih _ _ h e he with h0 | ⟨c', hc', s, en, h1, h2, h3⟩
      · exact Or.inl h0
      · exact Or.inr ⟨c', List.mem_cons_of_mem _ hc', s, en, h1, h2, h3⟩
    | some s =>
      rw [hcs] at h
      cases hce : c.event_end with
      | none => simp [hce] at h
      | some en =>
        rw [hce] at h
        simp only at h
        rcases ih _ _ h e he with h0 | ⟨c', hc', s', en', h1, h2, h3⟩
        · by_cases hmem : mkEvent c s en ∈ evs
          · rw [if_pos hmem] at h0
            exact Or.inl h0
          · rw [if_neg hmem] at h0
            rcases List.mem_append.1 h0 with h0 | h0
            · exact Or.inl h0
            · exact Or.inr ⟨c, List.mem_cons_self _ _, s, en, hcs, hce,
                List.mem_singleton.1 h0⟩
        · exact Or.inr ⟨c', List.mem_cons_of_mem _ hc', s', en', h1, h2, h3⟩

theorem ddAppend_mem (m : List (String × List Event)) (k : String) (e : Event) :
    ∀ p ∈ ddAppend m k e, ∀ x ∈ p.2, (∃ q ∈ m, x ∈ q.2) ∨ x = e := by
  unfold ddAppend
  by_cases hany : m.any fun p => p.1 = k
  · rw [if_pos hany]
    intro p hp x hx
    rcases List.mem_map.1 hp with ⟨q, hq, rfl⟩
    by_cases hqk : q.1 = k
    · rw [if_pos hqk] at hx
      rcases List.mem_append.1 hx with hx | hx
      · exact Or.inl ⟨q, hq, hx⟩
      · exact Or.inr (List.mem_singleton.1 hx)
    · rw [if_neg hqk] at hx
      exact Or.inl ⟨q, hq, hx⟩
  · rw [if_neg hany]
    intro p hp x hx
    rcases List.mem_append.1 hp with hp | hp
    · exact Or.inl ⟨p, hp, hx⟩
    · rw [List.mem_singleton.1 hp] at hx
      exact Or.inr (List.mem_singleton.1 hx)

theorem localized_fold_mem (P : Event → Prop) :
    ∀ (l : List Event) (acc : List (String × List Event)),
    (∀ p ∈ acc, ∀ e ∈ p.2, P e) → (∀ e ∈ l, P e) →
    ∀ p ∈ l.foldl (fun acc e =>
        match e.metadata.lang with
        | some lg => ddAppend acc lg e
        | none => acc) acc,
    ∀ e ∈ p.2, P e := by
  intro l
  induction l with
  | nil => intro acc hacc _ p hp e he; exact hacc p hp e he
  | cons e0 l ih =>
    intro acc hacc hl p hp e he
    simp only [List.foldl_cons] at hp
    apply ih _ ?_ (fun x hx => hl x (List.mem_cons_of_mem _ hx)) p hp e he
    cases hlang : e0.metadata.lang with
    | none => simpa [hlang] using hacc
    | some lg =>
      simp only [hlang]
      intro q hq x hx
      rcases ddAppend_mem acc lg e0 q hq x hx with ⟨r, hr, hxr⟩ | rfl
      · exact hacc r hr x hxr
      · exact hl x (List.mem_cons_self _ _)

/-! ## Store dedup and reset (C4) -/

/-- C4: re-offering already-collected items to a reset-free second
collection adds nothing (a structurally equal Event is never added twice,
so collecting the same item twice yields one Event), collection keeps the
store duplicate-free, and `initialize_events` empties the store and all
localized partitions so a subsequent collect starts from scratch. -/
theorem C4_dedup_and_reset :
    (∀ (evs : List Event) (items : List Content) (evs' : List Event),
      collectEvents evs items = .ok evs' →
      collectEvents evs' items = .ok evs') ∧
    (∀ (evs : List Event) (items : List Content) (evs' : List Event),
      collectEvents evs items = .ok evs' → evs.Nodup → evs'.Nodup) ∧
    (∀ st : Store, init_events st = Store.empty) ∧
    (∀ (st : Store) (items : List Content),
      collectEvents (init_events st).events items = collectEvents [] items) := by
  refine ⟨?_, ?_, fun _ => rfl, fun _ _ => rfl⟩
  · intro evs items evs' h
    apply collect_stable
    intro c hc s hcs
    have hsome : c.event_end.isSome :=
      collect_shape items evs evs' h c hc (by simp [hcs])
    rcases Option.isSome_iff_exists.1 hsome with ⟨e, hce⟩
    exact ⟨e, hce, collect_mem items evs evs' h c hc s e hcs hce⟩
  · exact fun evs items evs' h hd => collect_nodup items evs evs' h hd

theorem C4_dedup_and_reset_witness :
    collectEvents [] [exResolvedDuration] = .ok [exEventDuration] ∧
    collectEvents [exEventDuration] [exResolvedDuration] = .ok [exEventDuration] ∧
    init_events ⟨[exEventDuration], [("en", [exEventDuration])]⟩ = Store.empty := by
  have h1 : collectEvents [] [exResolvedDuration] = .ok [exEventDuration] := by decide
  exact ⟨h1, C4_dedup_and_reset.1 [] [exResolvedDuration] [exEventDuration] h1,
    C4_dedup_and_reset.2.2.1 _⟩

/-! ## Store invariant (C8) -/

/-- C8: after a collection from an empty store, an Event is in the store
iff its owning content item carries both resolved start and end
annotations (with the Event's own timestamps), and every Event in any
localized partition also belongs to the unordered event list. -/
theorem C8_store_invariant (items : List Content) (evs : List Event)
    (h : collectEvents [] items = .ok evs) :
    (∀ e ∈ evs, e.article ∈ items ∧ e.article.event_start = some e.dtstart ∧
      e.article.event_end = some e.dtend) ∧
    (∀ c ∈ items, ∀ s en, c.event_start = some s → c.event_end = some en →
      mkEvent c s en ∈ evs) ∧
    (∀ settings : Settings,
      ∀ p ∈ (generate_localized_events settings ⟨evs, []⟩).localized,
      ∀ e ∈ p.2, e ∈ evs) := by
  refine ⟨?_, fun c hc s en h1 h2 => collect_mem items [] evs h c hc s en h1 h2, ?_⟩
  · intro e he
    rcases collect_sound items [] evs h e he with h0 | ⟨c, hc, s, en, h1, h2, rfl⟩
    · cases h0
    · exact ⟨hc, by simp [mkEvent, h1], by simp [mkEvent, h2]⟩
  · intro settings p hp e he
    unfold generate_localized_events at hp
    by_cases hpl : settings.plugins.contains "i18n_subsites"
    · rw [if_pos hpl] at hp
      simp only at hp
      exact localized_fold_mem (· ∈ evs) evs [] (by simp) (fun x hx => hx) p hp e he
    · rw [if_neg hpl] at hp
      cases hp

theorem C8_store_invariant_witness :
    mkEvent exResolvedDuration (tstampSecs ⟨2024, 1, 1, 10, 0⟩)
      (tstampSecs ⟨2024, 1, 1, 12, 0⟩) ∈ [exEventDuration] :=
  (C8_store_invariant [exResolvedDuration] [exEventDuration] (by decide)).2.1
    exResolvedDuration (List.mem_singleton.2 rfl)
    (tstampSecs ⟨2024, 1, 1, 10, 0⟩) (tstampSecs ⟨2024, 1, 1, 12, 0⟩) rfl rfl

/-! ## Resolver end-timestamp precedence (C1) -/

/-- C1: for a content item whose metadata contains `event-start`, the end
is resolved with this precedence: a present `event-end` is parsed as the
end (even if a duration is also present); otherwise a present
`event-duration` makes the end `start + duration`; otherwise resolution
fails with the missing-end error naming the event title. -/
theorem C1_end_resolution (c : Content) (s0 : String)
    (hstart : mdGet c.metadata "event-start" = some s0) :
    (∀ st en, parse_tstamp c.metadata "event-start" = .ok st →
      (mdGet c.metadata "event-end").isSome →
      parse_tstamp c.metadata "event-end" = .ok en →
      parse_article c =
        .ok { c with attrEventStartH := some st, attrEventEndH := some en,
                     event_start := some st, event_end := some en }) ∧
    (∀ st dl, parse_tstamp c.metadata "event-start" = .ok st →
      mdGet c.metadata "event-end" = none →
      (mdGet c.metadata "event-duration").isSome →
      parse_timedelta c.metadata = .ok dl →
      parse_article c =
        .ok { c with attrEventStartH := some st, attrEventEndH := some (st + dl),
                     event_start := some st, event_end := some (st + dl) }) ∧
    (∀ st, parse_tstamp c.metadata "event-start" = .ok st →
      mdGet c.metadata "event-end" = none →
      mdGet c.metadata "event-duration" = none →
      parse_article c = .error (.missingEnd c.metadata.title)) := by
  refine ⟨?_, ?_, ?_⟩
  · intro st en hst hendS hen
    unfold parse_article resolveEnd
    simp [hstart, hst, hendS, hen]
  · intro st dl hst hendN hdurS hdl
    unfold parse_article resolveEnd
    simp [hstart, hst, hendN, hdurS, hdl]
  · intro st hst hendN hdurN
    unfold parse_article resolveEnd
    simp [hstart, hst, hendN, hdurN]

theorem C1_end_resolution_witness :
    parse_article exContentDuration = .ok exResolvedDuration ∧
    exResolvedDuration.event_end = some (tstampSecs ⟨2024, 1, 1, 12, 0⟩) := by
  have h := (C1_end_resolution exContentDuration "2024-01-01 10:00" rfl).2.1
    (tstampSecs ⟨2024, 1, 1, 10, 0⟩) 7200 (by decide) rfl rfl (by decide)
  exact ⟨h.trans (by decide), rfl⟩

/-! ## Duration parser lemmas (C3) -/

theorem intDigitsAux_digits : ∀ (l : List Char) (acc : Nat),
    (∀ c ∈ l, isDigitCh c) →
    intDigitsAux acc l = some (l.foldl (fun a c => a * 10 + dv c) acc) := by
  intro l
  induction l with
  | nil => intro acc _; rfl
  | cons c rest ih =>
    intro acc hd
    have hc : isDigitCh c := hd c (List.mem_cons_self _ _)
    have hne : ¬(c = '_') := by
      intro h
      rw [h] at hc
      exact absurd hc (by decide)
    unfold intDigitsAux
    rw [if_neg hne, if_pos hc, List.foldl_cons]
    exact ih _ fun c' hc' => hd c' (List.mem_cons_of_mem _ hc')

theorem natLit_digits (l : List Char) (hne : l ≠ [])
    (hd : ∀ c ∈ l, isDigitCh c) : natLit l = some (natVal l) := by
  cases l with
  | nil => exact absurd rfl hne
  | cons c rest =>
    have hc : isDigitCh c := hd c (List.mem_cons_self _ _)
    simp only [natLit]
    rw [if_pos hc, intDigitsAux_digits rest (dv c)
      (fun c' hc' => hd c' (List.mem_cons_of_mem _ hc'))]
    simp [natVal]

theorem pyIntParse_intLit (t : List Char) (h : intLit t = true) :
    pyIntParse t = some (intLitVal t) := by
  cases t with
  | nil => cases h
  | cons c rest =>
    simp only [intLit] at h
    simp only [pyIntParse, intLitVal]
    by_cases hp : c = '+'
    · rw [if_pos hp]
      rw [if_pos (by simp [hp])] at h
      obtain ⟨hne, hall⟩ : (!rest.isEmpty) = true ∧ rest.all isDigitCh = true := by
        simpa using h
      rw [natLit_digits rest (by simpa using hne)
        (by simpa [List.all_eq_true] using hall)]
      simp [hp]
    · by_cases hm : c = '-'
      · rw [if_neg hp, if_pos hm]
        rw [if_pos (by simp [hm])] at h
        obtain ⟨hne, hall⟩ : (!rest.isEmpty) = true ∧ rest.all isDigitCh = true := by
          simpa using h
        rw [natLit_digits rest (by simpa using hne)
          (by simpa [List.all_eq_true] using hall)]
        simp [hp, hm]
      · rw [if_neg hp, if_neg hm]
        rw [if_neg (by simp [hp, hm])] at h
        rw [natLit_digits (c :: rest) (List.cons_ne_nil _ _)
          (by simpa [List.all_eq_true] using h)]
        simp [hp, hm]

theorem timeMultiplier_cases (u : Char) (m : String)
    (h : timeMultiplier u = some m) :
    (u = 'w' ∧ m = "weeks") ∨ (u = 'd' ∧ m = "days") ∨
    (u = 'h' ∧ m = "hours") ∨ (u = 'm' ∧ m = "minutes") ∨
    (u = 's' ∧ m = "seconds") := by
  unfold timeMultiplier at h
  split_ifs at h with h1 h2 h3 h4 h5 <;>
    first
      | exact Or.inl ⟨h1, (Option.some.injEq _ _ ▸ h).symm⟩
      | exact Or.inr (Or.inl ⟨h2, (Option.some.injEq _ _ ▸ h).symm⟩)
      | exact Or.inr (Or.inr (Or.inl ⟨h3, (Option.some.injEq _ _ ▸ h).symm⟩))
      | exact Or.inr (Or.inr (Or.inr (Or.inl ⟨h4, (Option.some.injEq _ _ ▸ h).symm⟩)))
      | exact Or.inr (Or.inr (Or.inr (Or.inr ⟨h5, (Option.some.injEq _ _ ▸ h).symm⟩)))

theorem tdFold_good : ∀ (cs : List (List Char)) (t : TdArgs) (title : String),
    (∀ c ∈ cs, goodChunk c = true) →
    tdFold title cs t = .ok
      ⟨lastArgFrom t.weeks cs "weeks", lastArgFrom t.days cs "days",
       lastArgFrom t.hours cs "hours", lastArgFrom t.minutes cs "minutes",
       lastArgFrom t.seconds cs "seconds"⟩ := by
  intro cs
  induction cs with
  | nil => intro t title _; rfl
  | cons c cs ih =>
    intro t title hgood
    have hc := hgood c (List.mem_cons_self _ _)
    unfold goodChunk at hc
    cases hlast : c.getLast? with
    | none => rw [hlast] at hc; cases hc
    | some u =>
      rw [hlast] at hc
      obtain ⟨hmul, hint⟩ :
          (timeMultiplier u).isSome = true ∧ intLit c.dropLast = true := by
        simpa using hc
      rcases Option.isSome_iff_exists.1 hmul with ⟨m, hm⟩
      have hpy := pyIntParse_intLit c.dropLast hint
      simp only [tdFold, tdStep, hlast, hm, hpy]
      rw [ih _ title fun c' hc' => hgood c' (List.mem_cons_of_mem _ hc')]
      rcases timeMultiplier_cases u m hm with
        ⟨rfl, rfl⟩ | ⟨rfl, rfl⟩ | ⟨rfl, rfl⟩ | ⟨rfl, rfl⟩ | ⟨rfl, rfl⟩ <;>
        simp [setArg, lastArgFrom, unitMatches, hlast, timeMultiplier]

theorem lastArgFrom_no_match : ∀ (cs : List (List Char)) (a : Option Int)
    (f : String), (∀ c ∈ cs, unitMatches c f = false) →
    lastArgFrom a cs f = a := by
  intro cs
  induction cs with
  | nil => intro a f _; rfl
  | cons c cs ih =>
    intro a f hno
    simp only [lastArgFrom, hno c (List.mem_cons_self _ _), Bool.false_eq_true,
      if_false]
    exact ih a f fun c' hc' => hno c' (List.mem_cons_of_mem _ hc')

theorem lastArgFrom_const : ∀ (cs : List (List Char)) (f : String)
    (v : Option Int),
    (∀ c' ∈ cs, unitMatches c' f = true → some (intLitVal c'.dropLast) = v) →
    lastArgFrom v cs f = v := by
  intro cs
  induction cs with
  | nil => intro f v _; rfl
  | cons c cs ih =>
    intro f v hall
    simp only [lastArgFrom]
    by_cases h0 : unitMatches c f = true
    · rw [if_pos h0, hall c (List.mem_cons_self _ _) h0]
      exact ih f v fun c' hc' => hall c' (List.mem_cons_of_mem _ hc')
    · rw [if_neg h0]
      exact ih f v fun c' hc' => hall c' (List.mem_cons_of_mem _ hc')

theorem lastArgFrom_single : ∀ (cs : List (List Char)) (a : Option Int)
    (f : String) (c : List Char), c ∈ cs → unitMatches c f = true →
    (∀ c' ∈ cs, unitMatches c' f = true → c' = c) →
    lastArgFrom a cs f = some (intLitVal c.dropLast) := by
  intro cs
  induction cs with
  | nil => intro a f c hc; cases hc
  | cons c0 cs ih =>
    intro a f c hc hmatch huniq
    simp only [lastArgFrom]
    by_cases h0 : unitMatches c0 f = true
    · have he : c0 = c := huniq c0 (List.mem_cons_self _ _) h0
      subst he
      rw [if_pos h0]
      exact lastArgFrom_const cs f _ fun c' hc' hm' => by
        rw [huniq c' (List.mem_cons_of_mem _ hc') hm']
    · rw [if_neg h0]
      rcases List.mem_cons.1 hc with rfl | hc'
      · exact absurd hmatch h0
      · exact ih a f c hc' hmatch
          fun c' hcc' hm' => huniq c' (List.mem_cons_of_mem _ hcc') hm'

theorem unitMatches_eq_unit (c1 c2 : List Char) (f : String)
    (h1 : unitMatches c1 f = true) (h2 : unitMatches c2 f = true) :
    chunkUnit c1 = chunkUnit c2 := by
  unfold unitMatches at h1 h2
  cases hl1 : c1.getLast? with
  | none => rw [hl1] at h1; cases h1
  | some u1 =>
    rw [hl1] at h1
    cases hl2 : c2.getLast? with
    | none => rw [hl2] at h2; cases h2
    | some u2 =>
      rw [hl2] at h2
      have hm1 : timeMultiplier u1 = some f := of_decide_eq_true h1
      have hm2 : timeMultiplier u2 = some f := of_decide_eq_true h2
      unfold chunkUnit
      rw [hl1, hl2]
      rcases timeMultiplier_cases u1 f hm1 with
        ⟨rfl, rfl⟩ | ⟨rfl, rfl⟩ | ⟨rfl, rfl⟩ | ⟨rfl, rfl⟩ | ⟨rfl, rfl⟩ <;>
        rcases timeMultiplier_cases u2 _ hm2 with
          ⟨rfl, h⟩ | ⟨rfl, h⟩ | ⟨rfl, h⟩ | ⟨rfl, h⟩ | ⟨rfl, h⟩ <;>
        simp_all

theorem matching_unique (cs : List (List Char)) (f : String)
    (hnd : (cs.map chunkUnit).Nodup) :
    ∀ c1 ∈ cs, ∀ c2 ∈ cs, unitMatches c1 f = true → unitMatches c2 f = true →
    c1 = c2 := by
  intro c1 hc1 c2 hc2 h1 h2
  exact List.inj_on_of_nodup_map hnd hc1 hc2 (unitMatches_eq_unit c1 c2 f h1 h2)

theorem argsOf_perm (cs cs' : List (List Char)) (hperm : cs.Perm cs')
    (hnd : (cs.map chunkUnit).Nodup) : argsOf cs' = argsOf cs := by
  have hnd' : (cs'.map chunkUnit).Nodup := ((hperm.map chunkUnit).nodup_iff).1 hnd
  have hfield : ∀ f, lastArg cs' f = lastArg cs f := by
    intro f
    unfold lastArg
    by_cases hex : ∃ c ∈ cs, unitMatches c f = true
    · rcases hex with ⟨c, hc, hm⟩
      rw [lastArgFrom_single cs none f c hc hm
        (fun c' hc' hm' => matching_unique cs f hnd c' hc' c hc hm' hm),
        lastArgFrom_single cs' none f c (hperm.subset hc) hm
        (fun c' hc' hm' =>
          matching_unique cs f hnd c' (hperm.symm.subset hc') c hc hm' hm)]
    · push_neg at hex
      have hno : ∀ c ∈ cs, unitMatches c f = false := fun c hc =>
        Bool.eq_false_iff.2 fun h => hex c hc h
      rw [lastArgFrom_no_match cs none f hno,
        lastArgFrom_no_match cs' none f
          fun c hc => hno c (hperm.symm.subset hc)]
  simp [argsOf, lastArg] at hfield ⊢
  simp [argsOf, lastArg, hfield]

/-- C3: for a duration string splitting into chunks of the shape
`<int><w|d|h|m|s>`, the parser succeeds and fills, for each unit, exactly
the value of the last chunk naming that unit (so repeated units overwrite,
last wins, and unmentioned units stay absent); when the units are pairwise
distinct, any reordering of the chunks parses to the same `tdargs`. -/
theorem C3_duration_last_wins (md : Metadata) (s : String)
    (cs : List (List Char))
    (hmd : mdGet md "event-duration" = some s)
    (hsplit : pySplit s.data = cs)
    (hgood : ∀ c ∈ cs, goodChunk c = true) :
    parse_timedelta_args md = .ok (argsOf cs) ∧
    (∀ (md' : Metadata) (s' : String) (cs' : List (List Char)),
      mdGet md' "event-duration" = some s' → pySplit s'.data = cs' →
      cs.Perm cs' → (cs.map chunkUnit).Nodup →
      parse_timedelta_args md' = .ok (argsOf cs)) := by
  have hmain : ∀ (md0 : Metadata) (s0 : String) (cs0 : List (List Char)),
      mdGet md0 "event-duration" = some s0 → pySplit s0.data = cs0 →
      (∀ c ∈ cs0, goodChunk c = true) →
      parse_timedelta_args md0 = .ok (argsOf cs0) := by
    intro md0 s0 cs0 h1 h2 h3
    unfold parse_timedelta_args
    simp only [h1]
    rw [h2, tdFold_good cs0 {} md0.title h3]
    rfl
  refine ⟨hmain md s cs hmd hsplit hgood, ?_⟩
  intro md' s' cs' h1 h2 hperm hnd
  have hgood' : ∀ c ∈ cs', goodChunk c = true :=
    fun c hc => hgood c (hperm.symm.subset hc)
  rw [hmain md' s' cs' h1 h2 hgood', argsOf_perm cs cs' hperm hnd]

theorem C3_duration_last_wins_witness :
    parse_timedelta_args mdDur30 =
      .ok { weeks := none, days := none, hours := some 2, minutes := some 30,
            seconds := none } ∧
    parse_timedelta_args mdDurDup =
      .ok { weeks := none, days := some 1, hours := none, minutes := none,
            seconds := none } := by
  constructor
  · have h := (C3_duration_last_wins mdDur30 "2h 30m"
      [['2', 'h'], ['3', '0', 'm']] rfl (by decide) (by decide)).1
    exact h.trans (by decide)
  · have h := (C3_duration_last_wins mdDurDup "1d 1d"
      [['1', 'd'], ['1', 'd']] rfl (by decide) (by decide)).1
    exact h.trans (by decide)

/-! ## Timestamp parser lemmas (C2) -/

theorem bool_and_iff {a b : Bool} : (a && b) = true ↔ a = true ∧ b = true := by
  simp

theorem bool_or_iff {a b : Bool} : (a || b) = true ↔ a = true ∨ b = true := by
  simp

theorem natVal_one (a : Char) : natVal [a] = dv a := by
  simp [natVal]

theorem natVal_two (a b : Char) : natVal [a, b] = 10 * dv a + dv b := by
  simp [natVal]
  omega

theorem digit_not_space (a : Char) (h : isDigitCh a = true) :
    isSpaceCh a = false := by
  rw [Bool.eq_false_iff]
  intro hsp
  unfold isDigitCh at h
  unfold isSpaceCh at hsp
  obtain ⟨s, hs, hcs⟩ := List.any_eq_true.1 h
  obtain ⟨v, hv, hcv⟩ := List.any_eq_true.1 hsp
  obtain ⟨h1, h2⟩ := bool_and_iff.1 hcs
  have h1' := of_decide_eq_true h1
  have h2' := of_decide_eq_true h2
  have hv' := of_decide_eq_true hcv
  have hdisj : ∀ s ∈ ndRangeStarts, ∀ v ∈ pySpaceVals,
      ¬(s ≤ v ∧ v ≤ s + 9) := by decide
  exact hdisj s hs v hv ⟨hv' ▸ h1', hv' ▸ h2'⟩

theorem digit_ne_space (a : Char) (h : isDigitCh a = true) : ¬(a = ' ') := by
  intro h1
  subst h1
  exact absurd h (by decide)

theorem inRange_ne_space {lo hi : Char} (a : Char)
    (h : inRange lo hi a = true) (hsp : inRange lo hi ' ' = false) :
    ¬(a = ' ') := by
  intro heq
  rw [heq] at h
  rw [h] at hsp
  cases hsp

theorem ascii_digit_range {lo hi : Char} (a : Char)
    (h : inRange lo hi a = true) (hlo : 48 ≤ lo.toNat)
    (hhi : hi.toNat ≤ 57) : isDigitCh a = true := by
  unfold inRange at h
  obtain ⟨h1, h2⟩ := bool_and_iff.1 h
  have h1' := of_decide_eq_true h1
  have h2' := of_decide_eq_true h2
  unfold isDigitCh
  refine List.any_eq_true.2 ⟨48, by decide, ?_⟩
  exact bool_and_iff.2 ⟨decide_eq_true (by omega), decide_eq_true (by omega)⟩

theorem firstSome_isSome_iff {α β : Type} (l : List α) (f : α → Option β) :
    (firstSome l f).isSome = true ↔ ∃ x ∈ l, (f x).isSome = true := by
  induction l with
  | nil => simp [firstSome]
  | cons a as ih =>
    cases hf : f a with
    | some b =>
      simp only [firstSome, hf, Option.isSome_some, true_iff]
      exact ⟨a, List.mem_cons_self _ _, by simp [hf]⟩
    | none =>
      simp only [firstSome, hf]
      rw [ih]
      constructor
      · rintro ⟨x, hx, hfx⟩
        exact ⟨x, List.mem_cons_of_mem _ hx, hfx⟩
      · rintro ⟨x, hx, hfx⟩
        rcases List.mem_cons.1 hx with rfl | hx'
        · rw [hf] at hfx; cases hfx
        · exact ⟨x, hx', hfx⟩

theorem takeWhile_all_append (p : Char → Bool) :
    ∀ (ws rest : List Char), (∀ c ∈ ws, p c = true) →
    (∀ a tl, rest = a :: tl → p a = false) →
    (ws ++ rest).takeWhile p = ws ∧ (ws ++ rest).dropWhile p = rest := by
  intro ws
  induction ws with
  | nil =>
    intro rest _ hrest
    cases rest with
    | nil => exact ⟨rfl, rfl⟩
    | cons a tl =>
      simp [List.takeWhile_cons, List.dropWhile_cons, hrest a tl rfl]
  | cons c ws ih =>
    intro rest hws hrest
    have hc : p c = true := hws c (List.mem_cons_self _ _)
    have := ih rest (fun c' hc' => hws c' (List.mem_cons_of_mem _ hc')) hrest
    simp [List.takeWhile_cons, List.dropWhile_cons, hc, this.1, this.2]

theorem hourTok_head (hs : List Char) (h : hourTok hs = true) :
    ∃ a tl, hs = a :: tl ∧ isSpaceCh a = false := by
  rcases hs with _ | ⟨a, _ | ⟨b, t'⟩⟩
  · cases h
  · refine ⟨a, [], rfl, ?_⟩
    exact digit_not_space a (by simpa [hourTok] using h)
  · rcases t' with _ | _
    · refine ⟨a, [b], rfl, ?_⟩
      simp only [hourTok] at h
      rcases bool_or_iff.1 h with hA | hB
      · have ha : a = '2' := of_decide_eq_true (bool_and_iff.1 hA).1
        subst ha
        decide
      · exact digit_not_space a
          (ascii_digit_range a (bool_and_iff.1 hB).1 (by decide) (by decide))
    · cases h

theorem monthCands_sound (l : List Char) (mv : Nat) (r : List Char)
    (h : (mv, r) ∈ monthCands l) :
    ∃ t, l = t ++ r ∧ monthTok t = true ∧ tokVal t = mv := by
  rcases l with _ | ⟨a, _ | ⟨b, rest⟩⟩
  · cases h
  · simp only [monthCands] at h
    by_cases hc : inRange '1' '9' a = true
    · rw [if_pos hc] at h
      simp only [List.mem_singleton, Prod.mk.injEq] at h
      obtain ⟨rfl, rfl⟩ := h
      refine ⟨[a], by simp, by simpa [monthTok] using hc, ?_⟩
      simp [tokVal, inRange_ne_space a hc (by decide), natVal_one]
    · rw [if_neg hc] at h
      cases h
  · simp only [monthCands] at h
    rcases List.mem_append.1 h with h2 | h1
    · by_cases hA : (decide (a = '1') && inRange '0' '2' b) = true
      · rw [if_pos hA] at h2
        simp only [List.mem_singleton, Prod.mk.injEq] at h2
        obtain ⟨rfl, rfl⟩ := h2
        have ha : a = '1' := of_decide_eq_true (bool_and_iff.1 hA).1
        refine ⟨[a, b], by simp, by simp [monthTok, hA], ?_⟩
        subst ha
        simp [tokVal, natVal_two]
      · rw [if_neg hA] at h2
        by_cases hB : (decide (a = '0') && inRange '1' '9' b) = true
        · rw [if_pos hB] at h2
          simp only [List.mem_singleton, Prod.mk.injEq] at h2
          obtain ⟨rfl, rfl⟩ := h2
          have ha : a = '0' := of_decide_eq_true (bool_and_iff.1 hB).1
          refine ⟨[a, b], by simp, by simp [monthTok, hB], ?_⟩
          subst ha
          simp [tokVal, natVal_two]
        · rw [if_neg hB] at h2
          cases h2
    · by_cases hC : inRange '1' '9' a = true
      · rw [if_pos hC] at h1
        simp only [List.mem_singleton, Prod.mk.injEq] at h1
        obtain ⟨rfl, rfl⟩ := h1
        refine ⟨[a], rfl, by simpa [monthTok] using hC, ?_⟩
        simp [tokVal, inRange_ne_space a hC (by decide), natVal_one]
      · rw [if_neg hC] at h1
        cases h1

theorem monthCands_complete (t r : List Char) (h : monthTok t = true) :
    (tokVal t, r) ∈ monthCands (t ++ r) := by
  rcases t with _ | ⟨a, _ | ⟨b, _ | _⟩⟩
  · cases h
  · simp only [monthTok] at h
    have htv : tokVal [a] = dv a := by
      simp [tokVal, inRange_ne_space a h (by decide), natVal_one]
    rw [htv]
    cases r with
    | nil =>
      simp only [monthCands, List.cons_append, List.nil_append]
      rw [if_pos h]
      exact List.mem_singleton.2 rfl
    | cons b rs =>
      show (dv a, b :: rs) ∈ monthCands (a :: b :: rs)
      simp only [monthCands]
      refine List.mem_append.2 (Or.inr ?_)
      rw [if_pos h]
      exact List.mem_singleton.2 rfl
  · simp only [monthTok] at h
    show (tokVal [a, b], r) ∈ monthCands (a :: b :: r)
    simp only [monthCands]
    rcases bool_or_iff.1 h with hA | hB
    · have ha : a = '1' := of_decide_eq_true (bool_and_iff.1 hA).1
      have htv : tokVal [a, b] = 10 * dv a + dv b := by
        subst ha
        simp [tokVal, natVal_two]
      rw [htv]
      refine List.mem_append.2 (Or.inl ?_)
      rw [if_pos hA]
      exact List.mem_singleton.2 rfl
    · have ha : a = '0' := of_decide_eq_true (bool_and_iff.1 hB).1
      have htv : tokVal [a, b] = 10 * dv a + dv b := by
        subst ha
        simp [tokVal, natVal_two]
      rw [htv]
      refine List.mem_append.2 (Or.inl ?_)
      have hAf : ¬((decide (a = '1') && inRange '0' '2' b) = true) := by
        subst ha
        simp
      rw [if_neg hAf, if_pos hB]
      exact List.mem_singleton.2 rfl
  · cases h

theorem dayCands_sound (l : List Char) (dval : Nat) (r : List Char)
    (h : (dval, r) ∈ dayCands l) :
    ∃ t, l = t ++ r ∧ dayTok t = true ∧ tokVal t = dval := by
  rcases l with _ | ⟨a, _ | ⟨b, rest⟩⟩
  · cases h
  · simp only [dayCands] at h
    by_cases hc : inRange '1' '9' a = true
    · rw [if_pos hc] at h
      simp only [List.mem_singleton, Prod.mk.injEq] at h
      obtain ⟨rfl, rfl⟩ := h
      refine ⟨[a], by simp, by simpa [dayTok] using hc, ?_⟩
      simp [tokVal, inRange_ne_space a hc (by decide), natVal_one]
    · rw [if_neg hc] at h
      cases h
  · simp only [dayCands] at h
    rcases List.mem_append.1 h with h12 | h4
    · rcases List.mem_append.1 h12 with h2 | h3
      · by_cases hA : (decide (a = '3') && inRange '0' '1' b) = true
        · rw [if_pos hA] at h2
          simp only [List.mem_singleton, Prod.mk.injEq] at h2
          obtain ⟨rfl, rfl⟩ := h2
          have ha : a = '3' := of_decide_eq_true (bool_and_iff.1 hA).1
          refine ⟨[a, b], by simp, by simp [dayTok, hA], ?_⟩
          subst ha
          simp [tokVal, natVal_two]
        · rw [if_neg hA] at h2
          by_cases hB : (inRange '1' '2' a && isDigitCh b) = true
          · rw [if_pos hB] at h2
            simp only [List.mem_singleton, Prod.mk.injEq] at h2
            obtain ⟨rfl, rfl⟩ := h2
            refine ⟨[a, b], by simp, by simp [dayTok, hB], ?_⟩
            simp [tokVal, inRange_ne_space a (bool_and_iff.1 hB).1 (by decide),
              natVal_two]
          · rw [if_neg hB] at h2
            by_cases hC : (decide (a = '0') && inRange '1' '9' b) = true
            · rw [if_pos hC] at h2
              simp only [List.mem_singleton, Prod.mk.injEq] at h2
              obtain ⟨rfl, rfl⟩ := h2
              have ha : a = '0' := of_decide_eq_true (bool_and_iff.1 hC).1
              refine ⟨[a, b], by simp, by simp [dayTok, hC], ?_⟩
              subst ha
              simp [tokVal, natVal_two]
            · rw [if_neg hC] at h2
              cases h2
      · by_cases hE : inRange '1' '9' a = true
        · rw [if_pos hE] at h3
          simp only [List.mem_singleton, Prod.mk.injEq] at h3
          obtain ⟨rfl, rfl⟩ := h3
          refine ⟨[a], rfl, by simpa [dayTok] using hE, ?_⟩
          simp [tokVal, inRange_ne_space a hE (by decide), natVal_one]
        · rw [if_neg hE] at h3
          cases h3
    · by_cases hD : (decide (a = ' ') && inRange '1' '9' b) = true
      · rw [if_pos hD] at h4
        simp only [List.mem_singleton, Prod.mk.injEq] at h4
        obtain ⟨rfl, rfl⟩ := h4
        have ha : a = ' ' := of_decide_eq_true (bool_and_iff.1 hD).1
        refine ⟨[a, b], by simp, by simp [dayTok, hD], ?_⟩
        subst ha
        simp [tokVal, natVal_one]
      · rw [if_neg hD] at h4
        cases h4

theorem dayCands_complete (t r : List Char) (h : dayTok t = true) :
    (tokVal t, r) ∈ dayCands (t ++ r) := by
  rcases t with _ | ⟨a, _ | ⟨b, _ | _⟩⟩
  · cases h
  · simp only [dayTok] at h
    have htv : tokVal [a] = dv a := by
      simp [tokVal, inRange_ne_space a h (by decide), natVal_one]
    rw [htv]
    cases r with
    | nil =>
      simp only [dayCands, List.cons_append, List.nil_append]
      rw [if_pos h]
      exact List.mem_singleton.2 rfl
    | cons b rs =>
      show (dv a, b :: rs) ∈ dayCands (a :: b :: rs)
      simp only [dayCands]
      refine List.mem_append.2 (Or.inl (List.mem_append.2 (Or.inr ?_)))
      rw [if_pos h]
      exact List.mem_singleton.2 rfl
  · simp only [dayTok] at h
    show (tokVal [a, b], r) ∈ dayCands (a :: b :: r)
    simp only [dayCands]
    rcases bool_or_iff.1 h with h3 | hD
    · rcases bool_or_iff.1 h3 with h2 | hC
      · rcases bool_or_iff.1 h2 with hA | hB
        · have ha : a = '3' := of_decide_eq_true (bool_and_iff.1 hA).1
          have htv : tokVal [a, b] = 10 * dv a + dv b := by
            subst ha
            simp [tokVal, natVal_two]
          rw [htv]
          refine List.mem_append.2 (Or.inl (List.mem_append.2 (Or.inl ?_)))
          rw [if_pos hA]
          exact List.mem_singleton.2 rfl
        · have htv : tokVal [a, b] = 10 * dv a + dv b := by
            simp [tokVal, inRange_ne_space a (bool_and_iff.1 hB).1 (by decide),
              natVal_two]
          rw [htv]
          refine List.mem_append.2 (Or.inl (List.mem_append.2 (Or.inl ?_)))
          have hAf : ¬((decide (a = '3') && inRange '0' '1' b) = true) := by
            intro hx
            have ha : a = '3' := of_decide_eq_true (bool_and_iff.1 hx).1
            rw [ha] at hB
            exact absurd (bool_and_iff.1 hB).1 (by decide)
          rw [if_neg hAf, if_pos hB]
          exact List.mem_singleton.2 rfl
      · have ha : a = '0' := of_decide_eq_true (bool_and_iff.1 hC).1
        have htv : tokVal [a, b] = 10 * dv a + dv b := by
          subst ha
          simp [tokVal, natVal_two]
        rw [htv]
        refine List.mem_append.2 (Or.inl (List.mem_append.2 (Or.inl ?_)))
        subst ha
        have hBf : ¬((inRange '1' '2' '0' && isDigitCh b) = true) := by
          intro hx
          exact absurd (bool_and_iff.1 hx).1 (by decide)
        rw [if_neg (by simp), if_neg hBf, if_pos hC]
        exact List.mem_singleton.2 rfl
    · have ha : a = ' ' := of_decide_eq_true (bool_and_iff.1 hD).1
      have htv : tokVal [a, b] = dv b := by
        subst ha
        simp [tokVal, natVal_one]
      rw [htv]
      refine List.mem_append.2 (Or.inr ?_)
      rw [if_pos hD]
      exact List.mem_singleton.2 rfl
  · cases h

theorem hourCands_sound (l : List Char) (hval : Nat) (r : List Char)
    (h : (hval, r) ∈ hourCands l) :
    ∃ t, l = t ++ r ∧ hourTok t = true ∧ tokVal t = hval := by
  rcases l with _ | ⟨a, _ | ⟨b, rest⟩⟩
  · cases h
  · simp only [hourCands] at h
    by_cases hc : isDigitCh a = true
    · rw [if_pos hc] at h
      simp only [List.mem_singleton, Prod.mk.injEq] at h
      obtain ⟨rfl, rfl⟩ := h
      refine ⟨[a], by simp, by simpa [hourTok] using hc, ?_⟩
      simp [tokVal, digit_ne_space a hc, natVal_one]
    · rw [if_neg hc] at h
      cases h
  · simp only [hourCands] at h
    rcases List.mem_append.1 h with h2 | h1
    · by_cases hA : (decide (a = '2') && inRange '0' '3' b) = true
      · rw [if_pos hA] at h2
        simp only [List.mem_singleton, Prod.mk.injEq] at h2
        obtain ⟨rfl, rfl⟩ := h2
        have ha : a = '2' := of_decide_eq_true (bool_and_iff.1 hA).1
        refine ⟨[a, b], by simp, by simp [hourTok, hA], ?_⟩
        subst ha
        simp [tokVal, natVal_two]
      · rw [if_neg hA] at h2
        by_cases hB : (inRange '0' '1' a && isDigitCh b) = true
        · rw [if_pos hB] at h2
          simp only [List.mem_singleton, Prod.mk.injEq] at h2
          obtain ⟨rfl, rfl⟩ := h2
          refine ⟨[a, b], by simp, by simp [hourTok, hB], ?_⟩
          simp [tokVal, inRange_ne_space a (bool_and_iff.1 hB).1 (by decide),
            natVal_two]
        · rw [if_neg hB] at h2
          cases h2
    · by_cases hC : isDigitCh a = true
      · rw [if_pos hC] at h1
        simp only [List.mem_singleton, Prod.mk.injEq] at h1
        obtain ⟨rfl, rfl⟩ := h1
        refine ⟨[a], rfl, by simpa [hourTok] using hC, ?_⟩
        simp [tokVal, digit_ne_space a hC, natVal_one]
      · rw [if_neg hC] at h1
        cases h1

theorem hourCands_complete (t r : List Char) (h : hourTok t = true) :
    (tokVal t, r) ∈ hourCands (t ++ r) := by
  rcases t with _ | ⟨a, _ | ⟨b, _ | _⟩⟩
  · cases h
  · simp only [hourTok] at h
    have htv : tokVal [a] = dv a := by
      simp [tokVal, digit_ne_space a h, natVal_one]
    rw [htv]
    cases r with
    | nil =>
      simp only [hourCands, List.cons_append, List.nil_append]
      rw [if_pos h]
      exact List.mem_singleton.2 rfl
    | cons b rs =>
      show (dv a, b :: rs) ∈ hourCands (a :: b :: rs)
      simp only [hourCands]
      refine List.mem_append.2 (Or.inr ?_)
      rw [if_pos h]
      exact List.mem_singleton.2 rfl
  · simp only [hourTok] at h
    show (tokVal [a, b], r) ∈ hourCands (a :: b :: r)
    simp only [hourCands]
    rcases bool_or_iff.1 h with hA | hB
    · have ha : a = '2' := of_decide_eq_true (bool_and_iff.1 hA).1
      have htv : tokVal [a, b] = 10 * dv a + dv b := by
        subst ha
        simp [tokVal, natVal_two]
      rw [htv]
      refine List.mem_append.2 (Or.inl ?_)
      rw [if_pos hA]
      exact List.mem_singleton.2 rfl
    · have htv : tokVal [a, b] = 10 * dv a + dv b := by
        simp [tokVal, inRange_ne_space a (bool_and_iff.1 hB).1 (by decide),
          natVal_two]
      rw [htv]
      refine List.mem_append.2 (Or.inl ?_)
      have hAf : ¬((decide (a = '2') && inRange '0' '3' b) = true) := by
        intro hx
        have ha : a = '2' := of_decide_eq_true (bool_and_iff.1 hx).1
        rw [ha] at hB
        exact absurd (bool_and_iff.1 hB).1 (by decide)
      rw [if_neg hAf, if_pos hB]
      exact List.mem_singleton.2 rfl
  · cases h

theorem minuteCands_sound (l : List Char) (nval : Nat) (r : List Char)
    (h : (nval, r) ∈ minuteCands l) :
    ∃ t, l = t ++ r ∧ minuteTok t = true ∧ tokVal t = nval := by
  rcases l with _ | ⟨a, _ | ⟨b, rest⟩⟩
  · cases h
  · simp only [minuteCands] at h
    by_cases hc : isDigitCh a = true
    · rw [if_pos hc] at h
      simp only [List.mem_singleton, Prod.mk.injEq] at h
      obtain ⟨rfl, rfl⟩ := h
      refine ⟨[a], by simp, by simpa [minuteTok] using hc, ?_⟩
      simp [tokVal, digit_ne_space a hc, natVal_one]
    · rw [if_neg hc] at h
      cases h
  · simp only [minuteCands] at h
    rcases List.mem_append.1 h with h2 | h1
    · by_cases hA : (inRange '0' '5' a && isDigitCh b) = true
      · rw [if_pos hA] at h2
        simp only [List.mem_singleton, Prod.mk.injEq] at h2
        obtain ⟨rfl, rfl⟩ := h2
        refine ⟨[a, b], by simp, by simp [minuteTok, hA], ?_⟩
        simp [tokVal, inRange_ne_space a (bool_and_iff.1 hA).1 (by decide),
          natVal_two]
      · rw [if_neg hA] at h2
        cases h2
    · by_cases hC : isDigitCh a = true
      · rw [if_pos hC] at h1
        simp only [List.mem_singleton, Prod.mk.injEq] at h1
        obtain ⟨rfl, rfl⟩ := h1
        refine ⟨[a], rfl, by simpa [minuteTok] using hC, ?_⟩
        simp [tokVal, digit_ne_space a hC, natVal_one]
      · rw [if_neg hC] at h1
        cases h1

theorem minuteCands_complete (t r : List Char) (h : minuteTok t = true) :
    (tokVal t, r) ∈ minuteCands (t ++ r) := by
  rcases t with _ | ⟨a, _ | ⟨b, _ | _⟩⟩
  · cases h
  · simp only [minuteTok] at h
    have htv : tokVal [a] = dv a := by
      simp [tokVal, digit_ne_space a h, natVal_one]
    rw [htv]
    cases r with
    | nil =>
      simp only [minuteCands, List.cons_append, List.nil_append]
      rw [if_pos h]
      exact List.mem_singleton.2 rfl
    | cons b rs =>
      show (dv a, b :: rs) ∈ minuteCands (a :: b :: rs)
      simp only [minuteCands]
      refine List.mem_append.2 (Or.inr ?_)
      rw [if_pos h]
      exact List.mem_singleton.2 rfl
  · simp only [minuteTok] at h
    show (tokVal [a, b], r) ∈ minuteCands (a :: b :: r)
    simp only [minuteCands]
    have htv : tokVal [a, b] = 10 * dv a + dv b := by
      simp [tokVal, inRange_ne_space a (bool_and_iff.1 h).1 (by decide),
        natVal_two]
    rw [htv]
    refine List.mem_append.2 (Or.inl ?_)
    rw [if_pos h]
    exact List.mem_singleton.2 rfl
  · cases h

theorem strptime_sound (s : List Char)
    (h : (strptimeYmdHM s).isSome = true) : tsAccepted s := by
  rcases s with _ | ⟨y1, _ | ⟨y2, _ | ⟨y3, _ | ⟨y4, _ | ⟨c5, r1⟩⟩⟩⟩⟩
  · simp [strptimeYmdHM] at h
  · simp [strptimeYmdHM] at h
  · simp [strptimeYmdHM] at h
  · simp [strptimeYmdHM] at h
  · simp [strptimeYmdHM] at h
  · simp only [strptimeYmdHM] at h
    by_cases hd : (isDigitCh y1 && isDigitCh y2 && isDigitCh y3 && isDigitCh y4 &&
        decide (c5 = '-')) = true
    · rw [if_pos hd] at h
      simp only [Bool.and_eq_true, decide_eq_true_eq] at hd
      obtain ⟨⟨⟨⟨hy1, hy2⟩, hy3⟩, hy4⟩, hc5⟩ := hd
      subst hc5
      rcases (firstSome_isSome_iff _ _).1 h with ⟨⟨mval, r2⟩, hmem, hf⟩
      obtain ⟨tm, hr1, htm, htv⟩ := monthCands_sound r1 mval r2 hmem
      subst hr1
      dsimp only at hf
      rcases r2 with _ | ⟨c, r3⟩
      · simp [expectChar] at hf
      · simp only [expectChar] at hf
        by_cases hc : (c = '-')
        · subst hc
          rw [if_pos (by simp)] at hf
          rcases (firstSome_isSome_iff _ _).1 hf with ⟨⟨dval, r4⟩, hdm, hf2⟩
          obtain ⟨td, hr3, htd, hdv⟩ := dayCands_sound r3 dval r4 hdm
          subst hr3
          dsimp only at hf2
          obtain ⟨A, B, hA, hB⟩ :
              ∃ A B, r4.takeWhile isSpaceCh = A ∧ r4.dropWhile isSpaceCh = B :=
            ⟨_, _, rfl, rfl⟩
          rw [hA, hB] at hf2
          have hAB : A ++ B = r4 := by
            rw [← hA, ← hB, List.takeWhile_append_dropWhile]
          subst hAB
          by_cases hws : A.isEmpty = true
          · rw [if_pos hws] at hf2
            cases hf2
          · rw [if_neg hws] at hf2
            rcases (firstSome_isSome_iff _ _).1 hf2 with ⟨⟨hval, r6⟩, hhm, hf3⟩
            obtain ⟨th, hr5, hth, hhv⟩ := hourCands_sound B hval r6 hhm
            subst hr5
            dsimp only at hf3
            rcases r6 with _ | ⟨c', r7⟩
            · simp [expectChar] at hf3
            · simp only [expectChar] at hf3
              by_cases hc' : (c' = ':')
              · subst hc'
                rw [if_pos (by simp)] at hf3
                rcases (firstSome_isSome_iff _ _).1 hf3 with ⟨⟨nval, r8⟩, hnm, hf4⟩
                obtain ⟨tn, hr7, htn, hnv⟩ := minuteCands_sound r7 nval r8 hnm
                subst hr7
                dsimp only at hf4
                rcases r8 with _ | ⟨c8, r9⟩
                · simp only [requireEnd] at hf4
                  by_cases hvalid : (decide (1 ≤ natVal [y1, y2, y3, y4]) &&
                      decide (dval ≤ daysInMonth (natVal [y1, y2, y3, y4]) mval)) = true
                  · simp only [Bool.and_eq_true, decide_eq_true_eq] at hvalid
                    refine ⟨[y1, y2, y3, y4], tm, td, A, th, tn, ?_, rfl, ?_,
                      hvalid.1, htm, htd, ?_, ?_, hth, htn, ?_⟩
                    · simp [List.append_assoc]
                    · intro c hc
                      rcases hc with _ | ⟨_, _ | ⟨_, _ | ⟨_, _ | ⟨_, hc⟩⟩⟩⟩ <;>
                        first
                          | exact hy1
                          | exact hy2
                          | exact hy3
                          | exact hy4
                          | cases hc
                    · intro hAnil
                      rw [hAnil] at hws
                      exact hws rfl
                    · intro c hcA
                      exact List.mem_takeWhile_imp (hA ▸ hcA)
                    · rw [htv, hdv]
                      exact hvalid.2
                  · rw [if_neg hvalid] at hf4
                    cases hf4
                · simp [requireEnd] at hf4
              · rw [if_neg (by simpa using hc')] at hf3
                cases hf3
        · rw [if_neg (by simpa using hc)] at hf
          cases hf
    · rw [if_neg hd] at h
      cases h

theorem list_length_eq_four {α : Type} {l : List α} (h : l.length = 4) :
    ∃ a b c d, l = [a, b, c, d] := by
  rcases l with _ | ⟨a, _ | ⟨b, _ | ⟨c, _ | ⟨d, _ | ⟨e, t⟩⟩⟩⟩⟩ <;>
    simp only [List.length] at h
  · omega
  · omega
  · omega
  · omega
  · exact ⟨a, b, c, d, rfl⟩
  · omega

theorem strptime_complete (s : List Char) (h : tsAccepted s) :
    (strptimeYmdHM s).isSome = true := by
  obtain ⟨ys, ms, ds, ws, hs, ns, hseq, hylen, hydig, hyge, hmt, hdt, hwne,
    hwsp, hht, hnt, hday⟩ := h
  obtain ⟨y1, y2, y3, y4, rfl⟩ := list_length_eq_four hylen
  subst hseq
  have hy1 := hydig y1 (by simp)
  have hy2 := hydig y2 (by simp)
  have hy3 := hydig y3 (by simp)
  have hy4 := hydig y4 (by simp)
  simp only [List.cons_append, List.nil_append, strptimeYmdHM]
  rw [if_pos (by simp [hy1, hy2, hy3, hy4])]
  refine (firstSome_isSome_iff _ _).2
    ⟨(tokVal ms, '-' :: (ds ++ (ws ++ (hs ++ ':' :: ns)))),
     monthCands_complete ms _ hmt, ?_⟩
  dsimp only
  simp only [expectChar]
  rw [if_pos (by simp)]
  refine (firstSome_isSome_iff _ _).2
    ⟨(tokVal ds, ws ++ (hs ++ ':' :: ns)), dayCands_complete ds _ hdt, ?_⟩
  dsimp only
  obtain ⟨a0, tl0, hhs, ha0⟩ := hourTok_head hs hht
  have hsplit := takeWhile_all_append isSpaceCh ws (hs ++ ':' :: ns) hwsp
    (by
      intro a tl heq
      rw [hhs] at heq
      simp only [List.cons_append] at heq
      injection heq with h1 _
      rw [← h1]
      exact ha0)
  rw [hsplit.1, hsplit.2]
  rw [if_neg fun hh => hwne (List.isEmpty_iff.1 hh)]
  refine (firstSome_isSome_iff _ _).2
    ⟨(tokVal hs, ':' :: ns), hourCands_complete hs _ hht, ?_⟩
  dsimp only
  simp only [expectChar]
  rw [if_pos (by simp)]
  refine (firstSome_isSome_iff _ _).2 ⟨(tokVal ns, []), ?_, ?_⟩
  · have := minuteCands_complete ns [] hnt
    rwa [List.append_nil] at this
  · dsimp only
    simp only [requireEnd]
    rw [if_pos (by simp [hyge, hday])]
    rfl

/-- C2 counterexample: `"2024-1-1 1:05"` does not match the zero-padded
`YYYY-MM-DD HH:MM` format the claim prescribes, yet the timestamp parser
accepts it (Python's `strptime` tolerates non-zero-padded fields), so
"every string deviating from this format fails with MalformedTimestamp" is
false. -/
theorem C2_nonpadded_counterexample :
    specStrictFormat "2024-1-1 1:05".data = false ∧
    parse_tstamp mdNonPadded "event-start" =
      .ok (tstampSecs ⟨2024, 1, 1, 1, 5⟩) := by
  constructor
  · decide
  · decide

/-- C2 (amended): the timestamp parser succeeds exactly on the strings of
the form year-month-day‹ws›hour:minute in which the year is exactly four
Unicode decimal digits with value ≥ 0001, the month is one or two ASCII
digits in 1..12, the day is `3[0-1]`, `0[1-9]`, a single ASCII digit 1-9,
an ASCII space followed by an ASCII digit 1-9, or `[1-2]` followed by any
Unicode decimal digit — and valid for the month —, the separator ‹ws› is
a nonempty run of Python whitespace (so e.g. a no-break space works), the
hour is `2[0-3]`, `[0-1]` plus a Unicode digit, or one single Unicode
digit, and the minute is `[0-5]` plus a Unicode digit or one single
Unicode digit; zero-padding is not required, and at the `\d` positions of
the compiled format any Unicode decimal digit counts with its decimal
value.  Every other string makes `parse_tstamp` fail with the
MalformedTimestamp error naming the field and the event title. -/
theorem C2_strptime_characterization :
    (∀ s : List Char, (strptimeYmdHM s).isSome = true ↔ tsAccepted s) ∧
    (∀ (md : Metadata) (fieldName s : String),
      mdGet md fieldName = some s → ¬ tsAccepted s.data →
      parse_tstamp md fieldName =
        .error (.malformedTimestamp fieldName md.title)) := by
  constructor
  · exact fun s => ⟨strptime_sound s, strptime_complete s⟩
  · intro md fieldName s hmd hnacc
    unfold parse_tstamp
    simp only [hmd]
    cases hp : strptimeYmdHM s.data with
    | none => rfl
    | some t =>
      exact absurd (strptime_sound s.data (by simp [hp])) hnacc

theorem C2_strptime_characterization_witness :
    parse_tstamp mdBadTs "event-start" =
      .error (.malformedTimestamp "event-start" "Sprint planning") ∧
    (strptimeYmdHM "2024-01-01\u00A010:00".data).isSome = true ∧
    (strptimeYmdHM "２０２４-01-01 10:00".data).isSome = true := by
  refine ⟨?_, ?_, ?_⟩
  · refine C2_strptime_characterization.2 mdBadTs "event-start" "not a date"
      rfl fun hacc => ?_
    have := (C2_strptime_characterization.1 "not a date".data).2 hacc
    exact absurd this (by decide)
  · exact (C2_strptime_characterization.1 _).2
      ⟨['2', '0', '2', '4'], ['0', '1'], ['0', '1'], ['\u00A0'], ['1', '0'],
       ['0', '0'], by decide, by decide, by decide, by decide, by decide,
       by decide, by decide, by decide, by decide, by decide, by decide⟩
  · exact (C2_strptime_characterization.1 _).2
      ⟨['２', '０', '２', '４'], ['0', '1'], ['0', '1'],
       [' '], ['1', '0'], ['0', '0'], by decide, by decide, by decide,
       by decide, by decide, by decide, by decide, by decide, by decide,
       by decide, by decide⟩

end EventsPlugin
